import Mathlib

/-!
# Verification of the download orchestrator (`src/downloadManager.ts`)

This file gives a shallow embedding of the download orchestrator: the
per-item retry engine with exponential backoff (`downloadWithRetry`), the
filename inference (`inferFilename`), the cooperative worker-pool scheduler
(`runDownloadTask` / `processNext`), and the progress publisher
(`updateProgress`), together with theorems about the batch result
partition, the retry/backoff schedule, the concurrency bound, the progress
snapshot invariants, error containment, and snapshot isolation.

External I/O (the `fetch` transfer and the storage sink) is abstracted by
an oracle giving each attempt's outcome: `none` means the transfer and
persist completed, `some msg` means the attempt threw an error whose
message is `msg` (e.g. "HTTP 404").  Cooperative suspension points
(`await downloadFile`, `await sleep`) become explicit worker states in a
small-step machine; the nondeterministic interleaving is a schedule
(a list of worker indices).
-/

set_option maxHeartbeats 1000000

namespace DM

/-- Status of a single download entry (source: `FileStatus`). -/
inductive FileStatus where
  | pending
  | downloading
  | success
  | failed
deriving DecidableEq, Repr

/-- One download entry (source: `DownloadRequest`).  `error = none` models
the field being `undefined`. -/
structure DownloadRequest where
  id : String
  url : String
  filename : String
  status : FileStatus
  attempts : Nat
  error : Option String
deriving DecidableEq, Repr

/-! ## Filename inference (source: `inferFilename`, lines 88-100) -/

/-- JS `string.split(sep)` on a character list: `"".split(s) = [""]`,
separators at the ends produce empty segments. -/
def splitChars (sep : Char) : List Char → List (List Char)
  | [] => [[]]
  | c :: cs =>
    let r := splitChars sep cs
    if c = sep then [] :: r
    else
      match r with
      | s :: rest => (c :: s) :: rest
      | [] => [[c]]

/-- Modelled from the spec: the platform URL parser (`new URL(url)`), which
is not part of the repository.  Scans for the first `://`; the part before
it is the scheme and the part after it is the authority plus path.  Returns
`(scheme, rest)` or `none` when no `://` occurs (the constructor throws). -/
def findSchemeRest : List Char → Option (List Char × List Char)
  | [] => none
  | ':' :: '/' :: '/' :: rest => some ([], rest)
  | c :: cs => (findSchemeRest cs).map (fun p => (c :: p.1, p.2))

/-- Modelled from the spec: `new URL(url).pathname` for an absolute URL of
the shape `scheme://host[/path...]`.  The pathname is the suffix starting
at the first `/` after the authority, or `"/"` when there is none; an input
without `://` or with an empty scheme or authority fails to parse
(`none`, modelling the thrown `TypeError`).  Query/fragment splitting is
not modelled (the spec's examples carry none). -/
def urlPathname (url : List Char) : Option (List Char) :=
  match findSchemeRest url with
  | none => none
  | some (scheme, rest) =>
    if scheme = [] ∨ rest = [] then none
    else
      match rest.dropWhile (fun c => c ≠ '/') with
      | [] => some ['/']
      | path => some path

/-- The synthesized fallback name `download-{index+1}.jpg`
(source: line 99). -/
def defaultName (index : Nat) : String :=
  "download-" ++ toString (index + 1) ++ ".jpg"

/-- Source: `inferFilename` (lines 88-100).  Parse the URL; split the
pathname on `/` and drop empty segments (`filter(Boolean)`); take the last
segment; if it exists and contains a `.`, return it verbatim; in every
other case (no such segment, or URL parse failure) return the synthesized
name. -/
def inferFilename (url : String) (index : Nat) : String :=
  match urlPathname url.data with
  | some pathname =>
    let segments := (splitChars '/' pathname).filter (fun s => !s.isEmpty)
    match segments.getLast? with
    | some last => if last.contains '.' then String.mk last else defaultName index
    | none => defaultName index
  | none => defaultName index

/-! ## Retry engine (source: `downloadWithRetry`, lines 235-263)

The outcome of the `k`-th invocation (1-based) of the transfer-and-persist
primitive `downloadFile` for one item is given by an oracle
`Nat → Option String`: `none` is a completed transfer, `some msg` a thrown
error with message `msg`. -/

/-- One invocation of `downloadFile` (lines 133-148) as an exception-style
value: `.error msg` models the promise rejecting with an `Error` whose
message is `msg` (HTTP failure, network failure or sink failure alike),
`.ok` a completed save. -/
def attemptDownload (oracle : Nat → Option String) (k : Nat) : Except String Unit :=
  match oracle k with
  | none => Except.ok ()
  | some msg => Except.error msg

/-- The code after the while loop (lines 259-262): mark the request failed
and, per `request.error ?? (lastError instanceof Error ? lastError.message
: 'Unknown download error')`, keep the recorded error message or fall back. -/
def failRequest (req : DownloadRequest) (lastError : Option String) : DownloadRequest :=
  { req with
    status := FileStatus.failed
    error := some (req.error.getD (lastError.getD "Unknown download error")) }

/-- The `while (attempt <= maxRetries)` loop of `downloadWithRetry`
(lines 240-257).  `fuel` is the structural bound `maxRetries + 1 - attempt`
(the number of loop iterations still allowed); the `fuel = 0` case is the
loop-guard-false exit.  The second component collects the backoff waits
(`retryDelayMs * 2 ^ (attempt - 1)` after the failing attempt, line 254),
in order; no wait is recorded when the last allowed attempt fails
(the `break` on line 252). -/
def retryLoop (oracle : Nat → Option String) (maxRetries retryDelayMs : Nat) :
    Nat → Nat → Option String → DownloadRequest → DownloadRequest × List Nat
  | 0, _, lastError, req => (failRequest req lastError, [])
  | fuel + 1, attempt, lastError, req =>
    let req1 := { req with attempts := req.attempts + 1 }
    match attemptDownload oracle req1.attempts with
    | Except.ok _ =>
      ({ req1 with status := FileStatus.success, error := none }, [])
    | Except.error msg =>
      let req2 := { req1 with error := some msg }
      if attempt + 1 > maxRetries then
        (failRequest req2 (some msg), [])
      else
        let backoff := retryDelayMs * 2 ^ (attempt + 1 - 1)
        let r := retryLoop oracle maxRetries retryDelayMs fuel (attempt + 1) (some msg) req2
        (r.1, backoff :: r.2)

/-- Source: `downloadWithRetry` (lines 235-263).  Drives one request to a
terminal state; returns the final request record together with the list of
backoff waits performed, in order. -/
def downloadWithRetry (oracle : Nat → Option String) (maxRetries retryDelayMs : Nat)
    (req : DownloadRequest) : DownloadRequest × List Nat :=
  retryLoop oracle maxRetries retryDelayMs (maxRetries + 1) 0 none req

/-! ### Behaviour of the retry loop -/

/-- One-step unfolding of the loop body (lines 241-256), keyed directly on
the oracle's verdict for the next attempt. -/
theorem retryLoop_step (oracle : Nat → Option String) (mr d fuel attempt : Nat)
    (le : Option String) (req : DownloadRequest) :
    retryLoop oracle mr d (fuel + 1) attempt le req =
      match oracle (req.attempts + 1) with
      | none =>
        ({ req with attempts := req.attempts + 1, status := FileStatus.success,
                    error := none }, [])
      | some msg =>
        if attempt + 1 > mr then
          (failRequest { req with attempts := req.attempts + 1, error := some msg }
            (some msg), [])
        else
          ((retryLoop oracle mr d fuel (attempt + 1) (some msg)
              { req with attempts := req.attempts + 1, error := some msg }).1,
            d * 2 ^ (attempt + 1 - 1) ::
              (retryLoop oracle mr d fuel (attempt + 1) (some msg)
                { req with attempts := req.attempts + 1, error := some msg }).2) := by
  cases h : oracle (req.attempts + 1) <;>
    simp only [retryLoop, attemptDownload, h]

/-- When every attempt the loop may still make fails, the loop runs exactly
`fuel` more iterations, ends failed with the last attempt's message, and
waits `fuel - 1` times with the exponential backoffs continuing from the
current attempt counter. -/
theorem retryLoop_allFail (oracle : Nat → Option String) (mr d : Nat) :
    ∀ (fuel attempt : Nat) (le : Option String) (req : DownloadRequest),
      1 ≤ fuel → attempt + fuel = mr + 1 →
      (∀ j, req.attempts < j → j ≤ req.attempts + fuel → (oracle j).isSome = true) →
      ∃ m, oracle (req.attempts + fuel) = some m ∧
        retryLoop oracle mr d fuel attempt le req =
          ({ req with status := FileStatus.failed, attempts := req.attempts + fuel,
                      error := some m },
           (List.range (fuel - 1)).map (fun j => d * 2 ^ (attempt + j))) := by
  intro fuel
  induction fuel with
  | zero => intro _ _ _ h1 _ _; omega
  | succ fuel ih =>
    intro attempt le req _ hstop hf
    have h1 : req.attempts < req.attempts + 1 := by omega
    have h2 : req.attempts + 1 ≤ req.attempts + (fuel + 1) := by omega
    have hs := hf (req.attempts + 1) h1 h2
    obtain ⟨m1, hm1⟩ : ∃ m1, oracle (req.attempts + 1) = some m1 := by
      cases ho : oracle (req.attempts + 1) with
      | none => rw [ho] at hs; simp [Option.isSome] at hs
      | some m => exact ⟨m, rfl⟩
    rw [retryLoop_step]
    simp only [hm1]
    cases fuel with
    | zero =>
      -- last allowed attempt: the break on line 252 fires
      rw [if_pos (by omega)]
      refine ⟨m1, by simpa using hm1, ?_⟩
      simp [failRequest]
    | succ fuel' =>
      -- not the last allowed attempt: recurse after the backoff sleep
      rw [if_neg (by omega : ¬ (attempt + 1 > mr))]
      have hstop' : (attempt + 1) + (fuel' + 1) = mr + 1 := by omega
      set req2 : DownloadRequest :=
        { req with attempts := req.attempts + 1, error := some m1 } with hreq2
      have hf' : ∀ j, req2.attempts < j → j ≤ req2.attempts + (fuel' + 1) →
          (oracle j).isSome = true := by
        intro j hj1 hj2
        exact hf j (by simp [hreq2] at hj1 ⊢; omega) (by simp [hreq2] at hj2 ⊢; omega)
      obtain ⟨m, hm, hrec⟩ := ih (attempt + 1) (some m1) req2 (by omega) hstop' hf'
      refine ⟨m, ?_, ?_⟩
      · have he : req2.attempts + (fuel' + 1) = req.attempts + (fuel' + 1 + 1) := by
          simp [hreq2]; omega
        rwa [he] at hm
      · rw [hrec]
        simp only [Prod.mk.injEq]
        constructor
        · simp only [hreq2, DownloadRequest.mk.injEq, true_and, and_true]
          omega
        · simp only [Nat.add_sub_cancel]
          rw [List.range_succ_eq_map fuel']
          simp only [List.map_cons, List.map_map, List.cons.injEq]
          constructor
          · simp
          · refine List.map_congr_left ?_
            intro j _
            simp only [Function.comp_apply, Nat.succ_eq_add_one]
            have he : attempt + 1 + j = attempt + (j + 1) := by omega
            rw [he]

/-- When the `t`-th remaining attempt succeeds (and the earlier ones fail),
the loop ends successful with the attempt counter advanced by `t`, the
error field cleared, and `t - 1` exponential backoff waits. -/
theorem retryLoop_success (oracle : Nat → Option String) (mr d : Nat) :
    ∀ (t fuel attempt : Nat) (le : Option String) (req : DownloadRequest),
      1 ≤ t → t ≤ fuel → attempt + fuel = mr + 1 →
      oracle (req.attempts + t) = none →
      (∀ j, req.attempts < j → j < req.attempts + t → (oracle j).isSome = true) →
      retryLoop oracle mr d fuel attempt le req =
        ({ req with status := FileStatus.success, attempts := req.attempts + t,
                    error := none },
         (List.range (t - 1)).map (fun j => d * 2 ^ (attempt + j))) := by
  intro t
  induction t with
  | zero => intro _ _ _ _ h1; omega
  | succ t ih =>
    intro fuel attempt le req _ hle hstop hsucc hf
    obtain ⟨fuel', rfl⟩ : ∃ fuel', fuel = fuel' + 1 := ⟨fuel - 1, by omega⟩
    rw [retryLoop_step]
    cases t with
    | zero =>
      -- the very next attempt succeeds
      have hs : oracle (req.attempts + 1) = none := hsucc
      simp only [hs]
      simp
    | succ t' =>
      -- the next attempt fails, then the loop continues
      have h1 : req.attempts < req.attempts + 1 := by omega
      have h2 : req.attempts + 1 < req.attempts + (t' + 1 + 1) := by omega
      have hs := hf (req.attempts + 1) h1 h2
      obtain ⟨m1, hm1⟩ : ∃ m1, oracle (req.attempts + 1) = some m1 := by
        cases ho : oracle (req.attempts + 1) with
        | none => rw [ho] at hs; simp [Option.isSome] at hs
        | some m => exact ⟨m, rfl⟩
      simp only [hm1]
      rw [if_neg (by omega : ¬ (attempt + 1 > mr))]
      set req2 : DownloadRequest :=
        { req with attempts := req.attempts + 1, error := some m1 } with hreq2
      have hsucc' : oracle (req2.attempts + (t' + 1)) = none := by
        have he : req2.attempts + (t' + 1) = req.attempts + (t' + 1 + 1) := by
          simp [hreq2]; omega
        rwa [he]
      have hf' : ∀ j, req2.attempts < j → j < req2.attempts + (t' + 1) →
          (oracle j).isSome = true := by
        intro j hj1 hj2
        exact hf j (by simp [hreq2] at hj1 ⊢; omega) (by simp [hreq2] at hj2 ⊢; omega)
      have hrec := ih (fuel') (attempt + 1) (some m1) req2 (by omega) (by omega)
        (by omega) hsucc' hf'
      rw [hrec]
      simp only [Prod.mk.injEq]
      constructor
      · simp only [hreq2, DownloadRequest.mk.injEq, true_and, and_true]
        omega
      · simp only [Nat.add_sub_cancel]
        rw [List.range_succ_eq_map t']
        simp only [List.map_cons, List.map_map, List.cons.injEq]
        constructor
        · simp
        · refine List.map_congr_left ?_
          intro j _
          simp only [Function.comp_apply, Nat.succ_eq_add_one]
          have he : attempt + 1 + j = attempt + (j + 1) := by omega
          rw [he]

/-- When the first `k` remaining attempts fail and the loop is allowed at
least one further attempt, the `k`-th recorded wait (0-based index `k - 1`)
is `d * 2 ^ (attempt + k - 1)`, whatever happens later. -/
theorem retryLoop_backoffAt (oracle : Nat → Option String) (mr d : Nat) :
    ∀ (k fuel attempt : Nat) (le : Option String) (req : DownloadRequest),
      1 ≤ k → attempt + k ≤ mr → attempt + fuel = mr + 1 →
      (∀ j, req.attempts < j → j ≤ req.attempts + k → (oracle j).isSome = true) →
      ((retryLoop oracle mr d fuel attempt le req).2).get? (k - 1) =
        some (d * 2 ^ (attempt + (k - 1))) := by
  intro k
  induction k with
  | zero => intro _ _ _ _ h1; omega
  | succ k ih =>
    intro fuel attempt le req _ hk hstop hf
    obtain ⟨fuel', rfl⟩ : ∃ fuel', fuel = fuel' + 1 := ⟨fuel - 1, by omega⟩
    have h1 : req.attempts < req.attempts + 1 := by omega
    have h2 : req.attempts + 1 ≤ req.attempts + (k + 1) := by omega
    have hs := hf (req.attempts + 1) h1 h2
    obtain ⟨m1, hm1⟩ : ∃ m1, oracle (req.attempts + 1) = some m1 := by
      cases ho : oracle (req.attempts + 1) with
      | none => rw [ho] at hs; simp [Option.isSome] at hs
      | some m => exact ⟨m, rfl⟩
    rw [retryLoop_step]
    simp only [hm1]
    rw [if_neg (by omega : ¬ (attempt + 1 > mr))]
    set req2 : DownloadRequest :=
      { req with attempts := req.attempts + 1, error := some m1 } with hreq2
    cases k with
    | zero => simp
    | succ k' =>
      have hf' : ∀ j, req2.attempts < j → j ≤ req2.attempts + (k' + 1) →
          (oracle j).isSome = true := by
        intro j hj1 hj2
        exact hf j (by simp [hreq2] at hj1 ⊢; omega) (by simp [hreq2] at hj2 ⊢; omega)
      have hrec := ih (fuel') (attempt + 1) (some m1) req2 (by omega) (by omega)
        (by omega) hf'
      rw [show (k' + 1 + 1 - 1) = k' + 1 by omega]
      simp only [List.get?_cons_succ]
      rw [show (k' + 1 - 1) = k' by omega] at hrec
      rw [hrec]
      have he : attempt + 1 + k' = attempt + (k' + 1) := by omega
      rw [he]

/-- A freshly constructed request record, as `runDownloadTask` hands it to
the retry engine: `status = pending`, `attempts = 0`, no error. -/
def sampleRequest : DownloadRequest :=
  { id := "t0", url := "https://x/y.png", filename := "y.png",
    status := FileStatus.pending, attempts := 0, error := none }

/-- **C2.** For every request driven by the retry engine with
`maxRetries ≥ 0`: if it terminally fails, its `attempts` field equals
`maxRetries + 1`; if it succeeds on the `k`-th attempt
(`1 ≤ k ≤ maxRetries + 1`, i.e. attempts `1..k-1` fail and attempt `k`
completes), its `attempts` field equals `k`, its status is `success`, and
its `error` field is cleared. -/
theorem downloadWithRetry_attempts (oracle : Nat → Option String) (mr d : Nat)
    (req : DownloadRequest) (h0 : req.attempts = 0) :
    (∀ k, 1 ≤ k → k ≤ mr + 1 → oracle k = none →
      (∀ j, j < k - 1 → (oracle (j + 1)).isSome = true) →
      (downloadWithRetry oracle mr d req).1.attempts = k ∧
      (downloadWithRetry oracle mr d req).1.status = FileStatus.success ∧
      (downloadWithRetry oracle mr d req).1.error = none)
  ∧ ((∀ j, j < mr + 1 → (oracle (j + 1)).isSome = true) →
      (downloadWithRetry oracle mr d req).1.attempts = mr + 1 ∧
      (downloadWithRetry oracle mr d req).1.status = FileStatus.failed) := by
  constructor
  · intro k hk1 hk2 hnone hf
    have hsucc : oracle (req.attempts + k) = none := by rw [h0, Nat.zero_add]; exact hnone
    have hf' : ∀ j, req.attempts < j → j < req.attempts + k → (oracle j).isSome = true := by
      intro j hj1 hj2
      rw [h0, Nat.zero_add] at hj2
      rw [h0] at hj1
      have he : j - 1 + 1 = j := by omega
      rw [← he]
      exact hf (j - 1) (by omega)
    have heq := retryLoop_success oracle mr d k (mr + 1) 0 none req hk1 hk2
      (by omega) hsucc hf'
    rw [downloadWithRetry, heq, h0]
    simp
  · intro hf
    have hf' : ∀ j, req.attempts < j → j ≤ req.attempts + (mr + 1) →
        (oracle j).isSome = true := by
      intro j hj1 hj2
      rw [h0, Nat.zero_add] at hj2
      rw [h0] at hj1
      have he : j - 1 + 1 = j := by omega
      rw [← he]
      exact hf (j - 1) (by omega)
    obtain ⟨m, _, heq⟩ := retryLoop_allFail oracle mr d (mr + 1) 0 none req
      (by omega) (by omega) hf'
    rw [downloadWithRetry, heq, h0]
    simp

/-- **C2 witness.** `maxRetries = 3`, attempt 1 fails with "HTTP 404",
attempt 2 succeeds: final `attempts = 2`, status `success`, error
cleared. -/
theorem downloadWithRetry_attempts_witness :
    (downloadWithRetry (fun k => if k = 2 then none else some "HTTP 404")
        3 500 sampleRequest).1.attempts = 2 ∧
    (downloadWithRetry (fun k => if k = 2 then none else some "HTTP 404")
        3 500 sampleRequest).1.status = FileStatus.success ∧
    (downloadWithRetry (fun k => if k = 2 then none else some "HTTP 404")
        3 500 sampleRequest).1.error = none :=
  (downloadWithRetry_attempts (fun k => if k = 2 then none else some "HTTP 404")
      3 500 sampleRequest rfl).1 2 (by omega) (by omega) rfl (by decide)

/-- **C3.** For every request whose `k`-th attempt fails (1-indexed,
`k ≤ maxRetries`), the retry engine waits exactly
`retryDelayMs * 2 ^ (k - 1)` milliseconds before starting attempt `k + 1`
(the `k`-th entry of the wait list); after the last allowed attempt
(`k = maxRetries + 1`) fails it performs no further wait: exactly
`maxRetries` waits occur in total. -/
theorem downloadWithRetry_backoff (oracle : Nat → Option String) (mr d : Nat)
    (req : DownloadRequest) (h0 : req.attempts = 0) :
    (∀ k, 1 ≤ k → k ≤ mr → (∀ j, j < k → (oracle (j + 1)).isSome = true) →
      ((downloadWithRetry oracle mr d req).2).get? (k - 1) =
        some (d * 2 ^ (k - 1)))
  ∧ ((∀ j, j < mr + 1 → (oracle (j + 1)).isSome = true) →
      ((downloadWithRetry oracle mr d req).2).length = mr) := by
  constructor
  · intro k hk1 hk2 hf
    have hf' : ∀ j, req.attempts < j → j ≤ req.attempts + k → (oracle j).isSome = true := by
      intro j hj1 hj2
      rw [h0, Nat.zero_add] at hj2
      rw [h0] at hj1
      have he : j - 1 + 1 = j := by omega
      rw [← he]
      exact hf (j - 1) (by omega)
    have heq := retryLoop_backoffAt oracle mr d k (mr + 1) 0 none req hk1
      (by omega) (by omega) hf'
    rw [downloadWithRetry]
    rw [heq, Nat.zero_add]
  · intro hf
    have hf' : ∀ j, req.attempts < j → j ≤ req.attempts + (mr + 1) →
        (oracle j).isSome = true := by
      intro j hj1 hj2
      rw [h0, Nat.zero_add] at hj2
      rw [h0] at hj1
      have he : j - 1 + 1 = j := by omega
      rw [← he]
      exact hf (j - 1) (by omega)
    obtain ⟨m, _, heq⟩ := retryLoop_allFail oracle mr d (mr + 1) 0 none req
      (by omega) (by omega) hf'
    rw [downloadWithRetry, heq]
    simp

/-- **C3 witness.** `retryDelayMs = 100`, `maxRetries = 2`, every attempt
fails: the wait before attempt 2 is 100 ms, before attempt 3 is 200 ms,
and only those two waits occur. -/
theorem downloadWithRetry_backoff_witness :
    ((downloadWithRetry (fun _ => some "HTTP 404") 2 100 sampleRequest).2).get? 0 =
      some 100 ∧
    ((downloadWithRetry (fun _ => some "HTTP 404") 2 100 sampleRequest).2).get? 1 =
      some 200 ∧
    ((downloadWithRetry (fun _ => some "HTTP 404") 2 100 sampleRequest).2).length = 2 := by
  refine ⟨?_, ?_, ?_⟩
  · simpa using
      (downloadWithRetry_backoff (fun _ => some "HTTP 404") 2 100 sampleRequest rfl).1
        1 (by omega) (by omega) (by decide)
  · simpa using
      (downloadWithRetry_backoff (fun _ => some "HTTP 404") 2 100 sampleRequest rfl).1
        2 (by omega) (by omega) (by decide)
  · exact (downloadWithRetry_backoff (fun _ => some "HTTP 404") 2 100 sampleRequest rfl).2
      (by decide)

/-- **C10.** For every request that terminally fails under
`maxRetries ≥ 0`, the `error` field at exit is defined and equals exactly
the message of the error raised on the final (`maxRetries + 1`-th)
attempt: every caught failure immediately writes its message into `error`,
so the generic `'Unknown download error'` fallback on line 262 is never
consulted once at least one attempt has run. -/
theorem downloadWithRetry_finalError (oracle : Nat → Option String) (mr d : Nat)
    (req : DownloadRequest) (m : String) (h0 : req.attempts = 0)
    (hf : ∀ j, j < mr + 1 → (oracle (j + 1)).isSome = true)
    (hm : oracle (mr + 1) = some m) :
    (downloadWithRetry oracle mr d req).1.error = some m ∧
    (downloadWithRetry oracle mr d req).1.status = FileStatus.failed ∧
    (downloadWithRetry oracle mr d req).1.attempts = mr + 1 := by
  have hf' : ∀ j, req.attempts < j → j ≤ req.attempts + (mr + 1) →
      (oracle j).isSome = true := by
    intro j hj1 hj2
    rw [h0, Nat.zero_add] at hj2
    rw [h0] at hj1
    have he : j - 1 + 1 = j := by omega
    rw [← he]
    exact hf (j - 1) (by omega)
  obtain ⟨m', hm', heq⟩ := retryLoop_allFail oracle mr d (mr + 1) 0 none req
    (by omega) (by omega) hf'
  rw [h0, Nat.zero_add, hm] at hm'
  obtain rfl : m = m' := by injection hm'
  rw [downloadWithRetry, heq, h0]
  simp

/-- **C10 witness.** One allowed retry, both attempts fail with
"HTTP 404": the terminal error is "HTTP 404", not the generic fallback. -/
theorem downloadWithRetry_finalError_witness :
    (downloadWithRetry (fun _ => some "HTTP 404") 1 100 sampleRequest).1.error =
      some "HTTP 404" ∧
    (downloadWithRetry (fun _ => some "HTTP 404") 1 100 sampleRequest).1.status =
      FileStatus.failed ∧
    (downloadWithRetry (fun _ => some "HTTP 404") 1 100 sampleRequest).1.attempts = 2 :=
  downloadWithRetry_finalError (fun _ => some "HTTP 404") 1 100 sampleRequest
    "HTTP 404" rfl (by decide) rfl

/-! ### C7: filename inference -/

/-- **C7.** For every URL string and 0-based index `i`: when the URL
parses, the inferred filename is the last non-empty path segment of the
parsed URL whenever that segment contains a `.`; in every other case —
last non-empty segment without a `.`, no non-empty segment at all, or a
URL that fails to parse (which never aborts construction, `inferFilename`
being total) — it is the synthesized `"download-" ++ toString (i+1) ++
".jpg"`. -/
theorem inferFilename_spec (url : String) (i : Nat) :
    (urlPathname url.data = none → inferFilename url i = defaultName i)
  ∧ (∀ p last, urlPathname url.data = some p →
      ((splitChars '/' p).filter (fun s => !s.isEmpty)).getLast? = some last →
      (last.contains '.' = true → inferFilename url i = String.mk last) ∧
      (last.contains '.' = false → inferFilename url i = defaultName i))
  ∧ (∀ p, urlPathname url.data = some p →
      ((splitChars '/' p).filter (fun s => !s.isEmpty)).getLast? = none →
      inferFilename url i = defaultName i)
  ∧ defaultName i = "download-" ++ toString (i + 1) ++ ".jpg" := by
  refine ⟨?_, ?_, ?_, rfl⟩
  · intro hp
    simp [inferFilename, hp]
  · intro p last hp hl
    constructor <;> intro hc <;>
      · simp only [inferFilename, hp, hl, hc]
        simp
  · intro p hp hl
    simp [inferFilename, hp, hl]

/-- **C7 witness.** `"https://a/b/c.png"` yields `"c.png"`;
`"https://a/b/"` at index 2 yields `"download-3.jpg"`; the unparsable
`"notaurl"` at index 4 falls back to `"download-5.jpg"`. -/
theorem inferFilename_spec_witness :
    inferFilename "https://a/b/c.png" 0 = "c.png" ∧
    inferFilename "https://a/b/" 2 = "download-3.jpg" ∧
    inferFilename "notaurl" 4 = "download-5.jpg" := by
  refine ⟨?_, ?_, ?_⟩
  · exact ((inferFilename_spec "https://a/b/c.png" 0).2.1
      "/b/c.png".data "c.png".data rfl rfl).1 rfl
  · exact ((inferFilename_spec "https://a/b/" 2).2.1
      "/b/".data "b".data rfl rfl).2 rfl
  · exact (inferFilename_spec "notaurl" 4).1 rfl

/-! ## List update helper

`updateAt i f l` applies `f` to the element at index `i`, modelling an
in-place mutation of one array slot (`item.status = ...`,
`request.attempts += 1`, ...). -/

def updateAt (i : Nat) (f : α → α) (l : List α) : List α :=
  match l, i with
  | [], _ => []
  | x :: xs, 0 => f x :: xs
  | x :: xs, i + 1 => x :: updateAt i f xs

theorem length_updateAt (i : Nat) (f : α → α) (l : List α) :
    (updateAt i f l).length = l.length := by
  induction l generalizing i with
  | nil => cases i <;> rfl
  | cons x xs ih =>
    cases i with
    | zero => rfl
    | succ i => simp only [updateAt, List.length_cons, ih]

theorem get?_updateAt_self (i : Nat) (f : α → α) (l : List α) (x : α)
    (h : l.get? i = some x) : (updateAt i f l).get? i = some (f x) := by
  induction l generalizing i with
  | nil => simp at h
  | cons y ys ih =>
    cases i with
    | zero =>
      rw [List.get?_cons_zero] at h
      injection h with h
      subst h
      rfl
    | succ i =>
      rw [List.get?_cons_succ] at h
      show (y :: updateAt i f ys).get? (i + 1) = some (f x)
      rw [List.get?_cons_succ]
      exact ih i h

theorem get?_updateAt_ne (i j : Nat) (f : α → α) (l : List α) (h : i ≠ j) :
    (updateAt i f l).get? j = l.get? j := by
  induction l generalizing i j with
  | nil => cases i <;> rfl
  | cons y ys ih =>
    cases i with
    | zero =>
      cases j with
      | zero => exact absurd rfl h
      | succ j => rfl
    | succ i =>
      cases j with
      | zero => rfl
      | succ j =>
        show (y :: updateAt i f ys).get? (j + 1) = (y :: ys).get? (j + 1)
        rw [List.get?_cons_succ, List.get?_cons_succ]
        exact ih i j (by omega)

theorem map_updateAt_of_eq (g : α → β) (i : Nat) (f : α → α) (l : List α)
    (h : ∀ x, g (f x) = g x) : (updateAt i f l).map g = l.map g := by
  induction l generalizing i with
  | nil => cases i <;> rfl
  | cons y ys ih =>
    cases i with
    | zero => simp only [updateAt, List.map_cons, h]
    | succ i => simp only [updateAt, List.map_cons, ih]

theorem countP_updateAt (p : α → Bool) (i : Nat) (f : α → α) (l : List α) (x : α)
    (h : l.get? i = some x) :
    (updateAt i f l).countP p + (if p x then 1 else 0) =
      l.countP p + (if p (f x) then 1 else 0) := by
  induction l generalizing i with
  | nil => simp at h
  | cons y ys ih =>
    cases i with
    | zero =>
      rw [List.get?_cons_zero] at h
      injection h with h
      subst h
      show (f y :: ys).countP p + _ = _
      simp only [List.countP_cons]
      omega
    | succ i =>
      rw [List.get?_cons_succ] at h
      have hih := ih i h
      show (y :: updateAt i f ys).countP p + _ = _
      simp only [List.countP_cons]
      omega

theorem countP_updateAt_sub (p : α → Bool) (i : Nat) (f : α → α) (l : List α) (x : α)
    (h : l.get? i = some x) (hx : p x = true) (hfx : p (f x) = false) :
    (updateAt i f l).countP p + 1 = l.countP p := by
  have hc := countP_updateAt p i f l x h
  rw [hx, hfx] at hc
  simpa using hc

theorem countP_updateAt_keep (p : α → Bool) (i : Nat) (f : α → α) (l : List α) (x : α)
    (h : l.get? i = some x) (hpq : p (f x) = p x) :
    (updateAt i f l).countP p = l.countP p := by
  have hc := countP_updateAt p i f l x h
  rw [hpq] at hc
  omega

/-! ## Snapshot isolation (source: `updateProgress`, lines 153-169)

JS objects live on a heap and arrays hold references.  `EntryHeap` makes
that explicit: addresses are allocation indices, the orchestrator's live
`requests` array is a list of addresses, and the snapshot construction
`entries: requests.map((entry) => ({ ...entry }))` (line 166) allocates
one fresh object per live entry, copying the record value.  (All
`DownloadRequest` fields are primitives, so the `{ ...entry }` shallow
copy copies the whole value.) -/

structure EntryHeap where
  cells : List DownloadRequest

/-- Dereference an address. -/
def heapGet (h : EntryHeap) (a : Nat) : Option DownloadRequest :=
  h.cells.get? a

/-- Mutate the object at address `a` in place (no-op on a dangling
address); models assignments like `snapshot.entries[k].status = ...`. -/
def heapSet (h : EntryHeap) (a : Nat) (r : DownloadRequest) : EntryHeap :=
  ⟨updateAt a (fun _ => r) h.cells⟩

/-- Line 166, `requests.map((entry) => ({ ...entry }))`, in reference
semantics: allocate a fresh cell per live address, copying its record;
returns the grown heap and the snapshot's entry addresses in order. -/
def snapshotEntries (h : EntryHeap) (live : List Nat) : EntryHeap × List Nat :=
  (⟨h.cells ++ live.filterMap (heapGet h)⟩,
   List.range' h.cells.length live.length)

theorem filterMap_get?_of_isSome (g : Nat → Option DownloadRequest) (live : List Nat)
    (hall : ∀ a ∈ live, (g a).isSome = true) (j : Nat) :
    (live.filterMap g).get? j = (live.get? j).bind g := by
  induction live generalizing j with
  | nil => rfl
  | cons a rest ih =>
    have ha := hall a (List.mem_cons_self a rest)
    obtain ⟨r, hr⟩ : ∃ r, g a = some r := by
      cases hg : g a with
      | none => rw [hg] at ha; simp [Option.isSome] at ha
      | some r => exact ⟨r, rfl⟩
    have hrest : ∀ b ∈ rest, (g b).isSome = true := by
      intro b hb; exact hall b (List.mem_cons_of_mem a hb)
    cases j with
    | zero =>
      rw [List.filterMap_cons_some hr, List.get?_cons_zero, List.get?_cons_zero]
      exact hr.symm
    | succ j =>
      rw [List.filterMap_cons_some hr, List.get?_cons_succ, List.get?_cons_succ]
      exact ih hrest j

/-- **C9.** Every snapshot handed to the observer carries value copies of
the entries: the addresses allocated for `ProgressSnapshot.entries` are
disjoint from the orchestrator's live addresses, so (a) mutating any
delivered entry object leaves every live request record unchanged — hence
unchanged in every later snapshot and in the final `BatchResult` — and
(b) mutating any live request leaves every delivered entry object
unchanged; and each fresh cell holds a copy of the corresponding live
record at emission time. -/
theorem updateProgress_snapshot_isolation (h : EntryHeap) (live : List Nat)
    (hlive : ∀ a ∈ live, a < h.cells.length) :
    (∀ a ∈ (snapshotEntries h live).2, h.cells.length ≤ a) ∧
    (∀ a ∈ (snapshotEntries h live).2, ∀ v, ∀ b ∈ live,
        heapGet (heapSet (snapshotEntries h live).1 a v) b =
          heapGet (snapshotEntries h live).1 b) ∧
    (∀ b ∈ live, ∀ v, ∀ a ∈ (snapshotEntries h live).2,
        heapGet (heapSet (snapshotEntries h live).1 b v) a =
          heapGet (snapshotEntries h live).1 a) ∧
    (∀ j, j < live.length →
        ((snapshotEntries h live).2.get? j).bind
            (heapGet (snapshotEntries h live).1) =
          (live.get? j).bind (heapGet h)) := by
  have hfresh : ∀ a ∈ (snapshotEntries h live).2, h.cells.length ≤ a := by
    intro a ha
    simp only [snapshotEntries] at ha
    exact (List.mem_range'_1.mp ha).1
  have hsome : ∀ a ∈ live, (heapGet h a).isSome = true := by
    intro a ha
    have := hlive a ha
    simp only [heapGet]
    rw [List.get?_eq_get this]
    rfl
  refine ⟨hfresh, ?_, ?_, ?_⟩
  · intro a ha v b hb
    have hne : a ≠ b := by
      have h1 := hfresh a ha
      have h2 := hlive b hb
      omega
    simp only [heapGet, heapSet]
    exact get?_updateAt_ne a b _ _ hne
  · intro b hb v a ha
    have hne : b ≠ a := by
      have h1 := hfresh a ha
      have h2 := hlive b hb
      omega
    simp only [heapGet, heapSet]
    exact get?_updateAt_ne b a _ _ hne
  · intro j hj
    simp only [snapshotEntries]
    have hr : (List.range' h.cells.length live.length).get? j =
        some (h.cells.length + j) := by
      rw [List.get?_eq_get (by simpa using hj)]
      simp [List.get_range']
    rw [hr]
    show heapGet ⟨h.cells ++ live.filterMap (heapGet h)⟩ (h.cells.length + j) = _
    simp only [heapGet]
    rw [List.get?_append_right (by omega)]
    have he : h.cells.length + j - h.cells.length = j := by omega
    rw [he]
    exact filterMap_get?_of_isSome (heapGet h) live hsome j

/-- **C9 witness.** A two-cell heap with both records live: the snapshot
addresses are fresh, cross-mutation in either direction is invisible, and
the copies agree with the originals. -/
theorem updateProgress_snapshot_isolation_witness :
    (∀ a ∈ (snapshotEntries ⟨[sampleRequest, sampleRequest]⟩ [0, 1]).2,
        (2 : Nat) ≤ a) ∧
    (∀ a ∈ (snapshotEntries ⟨[sampleRequest, sampleRequest]⟩ [0, 1]).2,
        ∀ v, ∀ b ∈ [0, 1],
        heapGet (heapSet (snapshotEntries ⟨[sampleRequest, sampleRequest]⟩ [0, 1]).1 a v) b =
          heapGet (snapshotEntries ⟨[sampleRequest, sampleRequest]⟩ [0, 1]).1 b) := by
  have h := updateProgress_snapshot_isolation ⟨[sampleRequest, sampleRequest]⟩ [0, 1]
    (by intro a ha; simp at ha; rcases ha with rfl | rfl <;> simp)
  exact ⟨h.1, h.2.1⟩

/-! ## Worker pool scheduler (source: `runDownloadTask` / `processNext`,
lines 174-230)

The orchestrator runs `concurrency` logical workers multiplexed on one
execution context; code between `await` points runs without interruption
(spec §5).  A worker is therefore a small state machine whose states are
the suspension points of `processNext` with `downloadWithRetry` inlined:

* `start`        — about to run the body of `processNext`;
* `awaiting i a` — suspended in `await downloadFile` for request `i`, the
                   retry loop's `attempt` variable being `a`;
* `sleeping i a` — suspended in `await sleep(backoff)` before attempt
                   `a + 1` of request `i`;
* `done`         — the worker returned.

The batch oracle gives request `i`'s `k`-th transfer attempt outcome
(1-based `k`): `none` success, `some msg` a thrown error.  A schedule
lists the workers chosen to run the successive atomic segments; stepping
a missing, `done`, or otherwise unready worker is a no-op, so
quantification over all schedules covers every cooperative
interleaving. -/

inductive SnapStatus where
  | idle
  | running
  | completed
deriving DecidableEq, Repr

/-- Source: `DownloadProgressSnapshot` (lines 32-39). -/
structure DownloadProgressSnapshot where
  total : Nat
  completed : Nat
  successes : Nat
  failures : Nat
  entries : List DownloadRequest
  status : SnapStatus
deriving DecidableEq, Repr

/-- Source: `DownloadResult` (lines 44-47). -/
structure DownloadResult where
  successes : List DownloadRequest
  failures : List DownloadRequest
deriving DecidableEq, Repr

def isSuccess (r : DownloadRequest) : Bool := decide (r.status = FileStatus.success)

def isFailed (r : DownloadRequest) : Bool := decide (r.status = FileStatus.failed)

def isDownloading (r : DownloadRequest) : Bool :=
  decide (r.status = FileStatus.downloading)

/-- Source: `updateProgress` (lines 153-169): the snapshot value
delivered to `onProgress` when an observer is registered (the
`if (!onProgress) return` guard on line 158 makes the call a no-op
otherwise).  `entries` is the value-copied sequence
`requests.map((entry) => ({ ...entry }))`; the copy-vs-alias distinction
lives in the `EntryHeap` model above, in a value model the copy is the
value itself. -/
def mkSnapshot (requests : List DownloadRequest) (st : SnapStatus) :
    DownloadProgressSnapshot :=
  { total := requests.length
    completed := requests.countP isSuccess + requests.countP isFailed
    successes := requests.countP isSuccess
    failures := requests.countP isFailed
    entries := requests
    status := st }

inductive WorkerState where
  | start
  | awaiting (i : Nat) (attempt : Nat)
  | sleeping (i : Nat) (attempt : Nat)
  | done
deriving DecidableEq, Repr

/-- A worker holding a popped request (it is between `active += 1` and
`active -= 1`, and its request is in the `downloading` transfer phase). -/
def isBusy : WorkerState → Bool
  | WorkerState.awaiting _ _ => true
  | WorkerState.sleeping _ _ => true
  | _ => false

def isDoneW : WorkerState → Bool
  | WorkerState.done => true
  | _ => false

/-- The resolved configuration (`NormalizedOptions`, lines 52-58), with
the transfer/sink behaviour abstracted into the oracle. -/
structure TaskConfig where
  concurrency : Nat
  maxRetries : Nat
  retryDelayMs : Nat
deriving DecidableEq, Repr

/-- The orchestrator's in-flight state: the `requests` array, the shared
`queue` (indices into `requests`), the `active` counter, the worker pool,
the log of snapshots delivered to the observer so far, and the log of
indices popped and handed to the retry engine (in pop order). -/
structure SchedState where
  requests : List DownloadRequest
  queue : List Nat
  active : Nat
  workers : List WorkerState
  emitted : List DownloadProgressSnapshot
  dispatched : List Nat
deriving Repr

/-- One atomic segment of worker `w` (the code between suspension points
of `processNext`, lines 199-219, with `downloadWithRetry` inlined at its
`await`s):

* at `start` with an empty queue: return (lines 200-204);
* at `start` otherwise: pop the head (line 203), `active += 1`, mark the
  item `downloading`, publish a running snapshot (lines 206-208), enter
  `downloadWithRetry`, `attempts += 1` (line 242), suspend at
  `await downloadFile` (line 243);
* at `awaiting i a` when the oracle reports success: `status = success`,
  clear `error` (lines 244-245), return into `processNext`, publish a
  running snapshot (line 212), `active -= 1`, and loop back to the queue
  check (lines 214-217) — `done` when the queue is empty, else back to
  `start`;
* at `awaiting i a` on failure: record the message into `error`
  (line 249); when this was the last allowed attempt leave the loop and
  mark `failed`, keeping the recorded message (lines 250-252 and
  259-262), then publish and continue exactly as for success; otherwise
  suspend at `await sleep(backoff)` (lines 254-255);
* at `sleeping i a`: wake, `attempts += 1` (line 242), suspend at the
  next `await downloadFile`. -/
def stepWorker (cfg : TaskConfig) (oracle : Nat → Nat → Option String)
    (s : SchedState) (w : Nat) : SchedState :=
  match s.workers.get? w with
  | none => s
  | some u =>
    match u with
    | WorkerState.done => s
    | WorkerState.start =>
      match s.queue with
      | [] => { s with workers := updateAt w (fun _ => WorkerState.done) s.workers }
      | i :: rest =>
        let reqs1 := updateAt i
          (fun r => { r with status := FileStatus.downloading }) s.requests
        let reqs2 := updateAt i (fun r => { r with attempts := r.attempts + 1 }) reqs1
        { requests := reqs2
          queue := rest
          active := s.active + 1
          workers := updateAt w (fun _ => WorkerState.awaiting i 0) s.workers
          emitted := s.emitted ++ [mkSnapshot reqs1 SnapStatus.running]
          dispatched := s.dispatched ++ [i] }
    | WorkerState.awaiting i a =>
      match oracle i (a + 1) with
      | none =>
        let reqs1 := updateAt i
          (fun r => { r with status := FileStatus.success, error := none }) s.requests
        { s with
          requests := reqs1
          active := s.active - 1
          workers := updateAt w
            (fun _ => if s.queue.isEmpty then WorkerState.done else WorkerState.start)
            s.workers
          emitted := s.emitted ++ [mkSnapshot reqs1 SnapStatus.running] }
      | some msg =>
        if a + 1 > cfg.maxRetries then
          let reqs1 := updateAt i
            (fun r => { r with status := FileStatus.failed, error := some msg })
            s.requests
          { s with
            requests := reqs1
            active := s.active - 1
            workers := updateAt w
              (fun _ => if s.queue.isEmpty then WorkerState.done else WorkerState.start)
              s.workers
            emitted := s.emitted ++ [mkSnapshot reqs1 SnapStatus.running] }
        else
          { s with
            requests := updateAt i (fun r => { r with error := some msg }) s.requests
            workers := updateAt w (fun _ => WorkerState.sleeping i (a + 1)) s.workers }
    | WorkerState.sleeping i a =>
      { s with
        requests := updateAt i (fun r => { r with attempts := r.attempts + 1 })
          s.requests
        workers := updateAt w (fun _ => WorkerState.awaiting i a) s.workers }

/-- Run the machine along a schedule (each entry names the worker that
runs the next atomic segment). -/
def runSched (cfg : TaskConfig) (oracle : Nat → Nat → Option String) :
    SchedState → List Nat → SchedState
  | s, [] => s
  | s, w :: ws => runSched cfg oracle (stepWorker cfg oracle s w) ws

/-- Source: lines 183-189, one fresh record per input URL in order;
`idGen` abstracts `createTaskId` (`crypto.randomUUID`, line 80). -/
def buildRequests (idGen : Nat → String) : Nat → List String → List DownloadRequest
  | _, [] => []
  | i, url :: rest =>
    { id := idGen i, url := url, filename := inferFilename url i,
      status := FileStatus.pending, attempts := 0, error := none } ::
      buildRequests idGen (i + 1) rest

/-- The orchestrator state right before the workers launch (lines
182-194): entries built, idle snapshot published, queue holding every
index in input order, `concurrency` workers about to run `processNext`. -/
def initState (idGen : Nat → String) (urls : List String) (cfg : TaskConfig) :
    SchedState :=
  let requests := buildRequests idGen 0 urls
  { requests := requests
    queue := List.range urls.length
    active := 0
    workers := List.replicate cfg.concurrency WorkerState.start
    emitted := [mkSnapshot requests SnapStatus.idle]
    dispatched := [] }

/-- `Promise.all(workers)` has resolved: every worker returned. -/
def allDone (s : SchedState) : Bool := s.workers.all isDoneW

/-- The tail of `runDownloadTask` after `Promise.all` (lines 224-229):
once every worker is done, publish the final `completed` snapshot and
partition the terminal requests by status; on an unfinished state the
promise has not resolved, `none`. -/
def finishRun (s : SchedState) :
    Option (DownloadResult × List DownloadProgressSnapshot) :=
  if allDone s then
    some ({ successes := s.requests.filter isSuccess,
            failures := s.requests.filter isFailed },
          s.emitted ++ [mkSnapshot s.requests SnapStatus.completed])
  else
    none

/-- Source: `runDownloadTask` (lines 174-230).  Empty input returns the
empty result before anything is emitted (lines 178-180).  Otherwise the
workers run along the schedule; once every worker is `done` the final
`completed` snapshot is published and the terminal requests are
partitioned by status (lines 224-229).  A schedule too short to finish
the batch yields `none` (the returned promise has not resolved yet). -/
def runDownloadTask (idGen : Nat → String) (urls : List String) (cfg : TaskConfig)
    (oracle : Nat → Nat → Option String) (schedule : List Nat) :
    Option (DownloadResult × List DownloadProgressSnapshot) :=
  if urls.isEmpty then
    some ({ successes := [], failures := [] }, [])
  else
    finishRun (runSched cfg oracle (initState idGen urls cfg) schedule)

/-- **C5.** For the empty URL list, `runDownloadTask` returns
`{successes: [], failures: []}` immediately — under every configuration,
oracle and schedule — and the `onProgress` observer is never invoked: the
delivered snapshot sequence is empty, with no idle snapshot either. -/
theorem runDownloadTask_empty (idGen : Nat → String) (cfg : TaskConfig)
    (oracle : Nat → Nat → Option String) (schedule : List Nat) :
    runDownloadTask idGen [] cfg oracle schedule =
      some ({ successes := [], failures := [] }, []) := rfl

/-! ### Basic facts about the initial data -/

theorem lt_length_of_get? {l : List α} {i : Nat} {x : α} (h : l.get? i = some x) :
    i < l.length := by
  by_contra hc
  rw [List.get?_eq_none.mpr (by omega)] at h
  cases h

theorem exists_get?_of_lt {l : List α} {i : Nat} (h : i < l.length) :
    ∃ x, l.get? i = some x :=
  ⟨l.get ⟨i, h⟩, List.get?_eq_get h⟩

theorem length_buildRequests (idGen : Nat → String) (i : Nat) (urls : List String) :
    (buildRequests idGen i urls).length = urls.length := by
  induction urls generalizing i with
  | nil => rfl
  | cons u rest ih => simp [buildRequests, ih]

theorem map_url_buildRequests (idGen : Nat → String) (i : Nat) (urls : List String) :
    (buildRequests idGen i urls).map (fun r => r.url) = urls := by
  induction urls generalizing i with
  | nil => rfl
  | cons u rest ih => simp [buildRequests, ih]

theorem status_buildRequests (idGen : Nat → String) (i : Nat) (urls : List String)
    (j : Nat) (r : DownloadRequest) (h : (buildRequests idGen i urls).get? j = some r) :
    r.status = FileStatus.pending ∧ r.error = none := by
  induction urls generalizing i j with
  | nil => simp [buildRequests] at h
  | cons u rest ih =>
    cases j with
    | zero =>
      simp only [buildRequests, List.get?_cons_zero] at h
      injection h with h
      subst h
      exact ⟨rfl, rfl⟩
    | succ j =>
      simp only [buildRequests, List.get?_cons_succ] at h
      exact ih (i + 1) j h

theorem get?_replicate_start {n w : Nat} {u : WorkerState}
    (h : (List.replicate n WorkerState.start).get? w = some u) :
    u = WorkerState.start :=
  List.eq_of_mem_replicate (List.get?_mem h)

theorem countP_isBusy_replicate (n : Nat) :
    (List.replicate n WorkerState.start).countP isBusy = 0 := by
  induction n with
  | zero => rfl
  | succ n ih => simp [List.replicate_succ, List.countP_cons, ih, isBusy]

theorem countP_isDownloading_buildRequests (idGen : Nat → String) (i : Nat)
    (urls : List String) :
    (buildRequests idGen i urls).countP isDownloading = 0 := by
  induction urls generalizing i with
  | nil => rfl
  | cons u rest ih => simp [buildRequests, List.countP_cons, ih, isDownloading]

theorem countP_status_le_length (l : List DownloadRequest) :
    l.countP isSuccess + l.countP isFailed ≤ l.length := by
  induction l with
  | nil => simp
  | cons r rest ih =>
    simp only [List.countP_cons, List.length_cons]
    have hone : (if isSuccess r then 1 else 0) + (if isFailed r then 1 else 0) ≤ 1 := by
      cases hs : r.status <;> simp [isSuccess, isFailed, hs]
    omega

/-- The consistency conditions of a published snapshot. -/
def SnapOK (n : Nat) (snap : DownloadProgressSnapshot) : Prop :=
  snap.completed = snap.successes + snap.failures ∧
  snap.completed ≤ snap.total ∧ snap.total = n

theorem mkSnapshot_ok (reqs : List DownloadRequest) (st : SnapStatus) (n : Nat)
    (hlen : reqs.length = n) : SnapOK n (mkSnapshot reqs st) :=
  ⟨rfl, countP_status_le_length reqs, hlen⟩

/-- Worker `u` currently holds request `i` (it is suspended inside
`downloadWithRetry` for that item). -/
def WorkerBusyOn (u : WorkerState) (i : Nat) : Prop :=
  (∃ a, u = WorkerState.awaiting i a) ∨ (∃ a, u = WorkerState.sleeping i a)

theorem workerBusyOn_awaiting {i a i' : Nat}
    (h : WorkerBusyOn (WorkerState.awaiting i a) i') : i' = i := by
  rcases h with ⟨a', h⟩ | ⟨a', h⟩
  · injection h with h1 _
    exact h1.symm
  · cases h

theorem workerBusyOn_sleeping {i a i' : Nat}
    (h : WorkerBusyOn (WorkerState.sleeping i a) i') : i' = i := by
  rcases h with ⟨a', h⟩ | ⟨a', h⟩
  · cases h
  · injection h with h1 _
    exact h1.symm

theorem not_workerBusyOn_start (i : Nat) : ¬ WorkerBusyOn WorkerState.start i := by
  rintro (⟨a, h⟩ | ⟨a, h⟩) <;> cases h

theorem not_workerBusyOn_done (i : Nat) : ¬ WorkerBusyOn WorkerState.done i := by
  rintro (⟨a, h⟩ | ⟨a, h⟩) <;> cases h

theorem not_workerBusyOn_ite (b : Bool) (i : Nat) :
    ¬ WorkerBusyOn (if b then WorkerState.done else WorkerState.start) i := by
  cases b
  · simpa using not_workerBusyOn_start i
  · simpa using not_workerBusyOn_done i

/-- The inductive invariant of the scheduler: the pool never changes
size; the `requests` array keeps its length and the input URLs in place;
`dispatched ++ queue` is always exactly `range n` (every index is popped
at most once, in order); an index is in the queue exactly while its
request is `pending`; a busy worker holds a `downloading` request and no
two workers hold the same one; the number of `downloading` requests
equals the number of busy workers; a worker only ever returned after
seeing the queue empty; a `failed` request always carries an error
message; and every published snapshot is consistent. -/
structure Inv (cfg : TaskConfig) (urls : List String) (s : SchedState) : Prop where
  wlen : s.workers.length = cfg.concurrency
  rlen : s.requests.length = urls.length
  urlsEq : s.requests.map (fun r => r.url) = urls
  queueSplit : s.dispatched ++ s.queue = List.range urls.length
  pendingIff : ∀ i r, s.requests.get? i = some r →
    (r.status = FileStatus.pending ↔ i ∈ s.queue)
  busyOK : ∀ w u i, s.workers.get? w = some u → WorkerBusyOn u i →
    ∃ r, s.requests.get? i = some r ∧ r.status = FileStatus.downloading
  busyUnique : ∀ w1 w2 u1 u2 i, w1 ≠ w2 → s.workers.get? w1 = some u1 →
    s.workers.get? w2 = some u2 → WorkerBusyOn u1 i → WorkerBusyOn u2 i → False
  countEq : s.requests.countP isDownloading = s.workers.countP isBusy
  doneEmpty : ∀ w, s.workers.get? w = some WorkerState.done → s.queue = []
  failedErr : ∀ i r, s.requests.get? i = some r → r.status = FileStatus.failed →
    r.error.isSome = true
  snapsOK : ∀ snap ∈ s.emitted, SnapOK urls.length snap

theorem inv_init (idGen : Nat → String) (urls : List String) (cfg : TaskConfig) :
    Inv cfg urls (initState idGen urls cfg) := by
  refine ⟨?_, ?_, ?_, ?_, ?_, ?_, ?_, ?_, ?_, ?_, ?_⟩
  · simp [initState]
  · simp [initState, length_buildRequests]
  · simp [initState, map_url_buildRequests]
  · simp [initState]
  · intro i r h
    simp only [initState] at h ⊢
    constructor
    · intro _
      have hi := lt_length_of_get? h
      rw [length_buildRequests] at hi
      exact List.mem_range.mpr hi
    · intro _
      exact (status_buildRequests idGen 0 urls i r h).1
  · intro w u i hw hb
    simp only [initState] at hw
    rw [get?_replicate_start hw] at hb
    exact absurd hb (not_workerBusyOn_start i)
  · intro w1 w2 u1 u2 i _ hw1 _ hb1 _
    simp only [initState] at hw1
    rw [get?_replicate_start hw1] at hb1
    exact absurd hb1 (not_workerBusyOn_start i)
  · simp only [initState]
    rw [countP_isDownloading_buildRequests, countP_isBusy_replicate]
  · intro w hw
    simp only [initState] at hw
    exact WorkerState.noConfusion (get?_replicate_start hw)
  · intro i r h hs
    simp only [initState] at h
    rw [(status_buildRequests idGen 0 urls i r h).1] at hs
    cases hs
  · intro snap hmem
    simp only [initState, List.mem_singleton] at hmem
    subst hmem
    exact mkSnapshot_ok _ _ _ (length_buildRequests idGen 0 urls)

/-! ### Invariant preservation -/

theorem inv_step (cfg : TaskConfig) (urls : List String)
    (oracle : Nat → Nat → Option String) (s : SchedState) (w : Nat)
    (hInv : Inv cfg urls s) : Inv cfg urls (stepWorker cfg oracle s w) := by
  obtain ⟨hwlen, hrlen, hurls, hqs, hpend, hbusy, huniq, hcount, hdone, hfail, hsnaps⟩ := hInv
  cases hw : s.workers.get? w with
  | none =>
    simp only [stepWorker, hw]
    exact ⟨hwlen, hrlen, hurls, hqs, hpend, hbusy, huniq, hcount, hdone, hfail, hsnaps⟩
  | some u =>
    cases u with
    | done =>
      simp only [stepWorker, hw]
      exact ⟨hwlen, hrlen, hurls, hqs, hpend, hbusy, huniq, hcount, hdone, hfail, hsnaps⟩
    | start =>
      cases hq : s.queue with
      | nil =>
        have hstep : stepWorker cfg oracle s w =
            { s with workers := updateAt w (fun _ => WorkerState.done) s.workers } := by
          simp only [stepWorker, hw, hq]
        rw [hstep]
        refine ⟨?_, ?_, ?_, ?_, ?_, ?_, ?_, ?_, ?_, ?_, ?_⟩
        · dsimp only
          rw [length_updateAt]
          exact hwlen
        · dsimp only
          exact hrlen
        · dsimp only
          exact hurls
        · dsimp only
          exact hqs
        · dsimp only
          exact hpend
        · dsimp only
          intro w' u' i hw' hb'
          by_cases hww : w' = w
          · subst hww
            rw [get?_updateAt_self w' _ _ _ hw] at hw'
            injection hw' with hw'
            rw [← hw'] at hb'
            exact absurd hb' (not_workerBusyOn_done i)
          · rw [get?_updateAt_ne w w' _ _ (fun hh => hww hh.symm)] at hw'
            exact hbusy w' u' i hw' hb'
        · dsimp only
          intro w1 w2 u1 u2 i hne hw1 hw2 hb1 hb2
          by_cases h1 : w1 = w
          · subst h1
            rw [get?_updateAt_self w1 _ _ _ hw] at hw1
            injection hw1 with hw1
            rw [← hw1] at hb1
            exact absurd hb1 (not_workerBusyOn_done i)
          · by_cases h2 : w2 = w
            · subst h2
              rw [get?_updateAt_self w2 _ _ _ hw] at hw2
              injection hw2 with hw2
              rw [← hw2] at hb2
              exact absurd hb2 (not_workerBusyOn_done i)
            · rw [get?_updateAt_ne w w1 _ _ (fun hh => h1 hh.symm)] at hw1
              rw [get?_updateAt_ne w w2 _ _ (fun hh => h2 hh.symm)] at hw2
              exact huniq w1 w2 u1 u2 i hne hw1 hw2 hb1 hb2
        · dsimp only
          have hc := countP_updateAt isBusy w (fun _ => WorkerState.done) s.workers _ hw
          simp [isBusy] at hc
          rw [hcount]
          omega
        · dsimp only
          intro w' _
          exact hq
        · dsimp only
          exact hfail
        · dsimp only
          exact hsnaps
      | cons i rest =>
        have hqs' : s.dispatched ++ (i :: rest) = List.range urls.length := by
          rw [← hq]; exact hqs
        have hiq : i ∈ s.queue := by rw [hq]; exact List.mem_cons_self i rest
        have hilt : i < urls.length := by
          have hm : i ∈ List.range urls.length := by
            rw [← hqs']
            exact List.mem_append_right _ (List.mem_cons_self i rest)
          exact List.mem_range.mp hm
        have hilen : i < s.requests.length := by rw [hrlen]; exact hilt
        obtain ⟨x, hx⟩ := exists_get?_of_lt hilen
        have hxp : x.status = FileStatus.pending := (hpend i x hx).mpr hiq
        have hnotin : i ∉ rest := by
          have hnd : (s.dispatched ++ (i :: rest)).Nodup := by
            rw [hqs']; exact List.nodup_range _
          exact (List.nodup_cons.mp hnd.of_append_right).1
        have hr1i := get?_updateAt_self i
          (fun r => { r with status := FileStatus.downloading }) s.requests x hx
        have hr2i := get?_updateAt_self i
          (fun r => { r with attempts := r.attempts + 1 })
          (updateAt i (fun r => { r with status := FileStatus.downloading }) s.requests)
          _ hr1i
        have hstep : stepWorker cfg oracle s w =
            { requests := updateAt i (fun r => { r with attempts := r.attempts + 1 })
                (updateAt i (fun r => { r with status := FileStatus.downloading }) s.requests)
              queue := rest
              active := s.active + 1
              workers := updateAt w (fun _ => WorkerState.awaiting i 0) s.workers
              emitted := s.emitted ++ [mkSnapshot
                (updateAt i (fun r => { r with status := FileStatus.downloading }) s.requests)
                SnapStatus.running]
              dispatched := s.dispatched ++ [i] } := by
          simp only [stepWorker, hw, hq]
        rw [hstep]
        refine ⟨?_, ?_, ?_, ?_, ?_, ?_, ?_, ?_, ?_, ?_, ?_⟩
        · dsimp only
          rw [length_updateAt]
          exact hwlen
        · dsimp only
          rw [length_updateAt, length_updateAt]
          exact hrlen
        · dsimp only
          have hm2 : List.map (fun r => r.url)
              (updateAt i (fun r => { r with attempts := r.attempts + 1 })
                (updateAt i (fun r => { r with status := FileStatus.downloading })
                  s.requests)) =
              List.map (fun r => r.url)
                (updateAt i (fun r => { r with status := FileStatus.downloading })
                  s.requests) :=
            map_updateAt_of_eq _ _ _ _ (fun r => rfl)
          have hm1 : List.map (fun r => r.url)
              (updateAt i (fun r => { r with status := FileStatus.downloading })
                s.requests) =
              List.map (fun r => r.url) s.requests :=
            map_updateAt_of_eq _ _ _ _ (fun r => rfl)
          exact hm2.trans (hm1.trans hurls)
        · dsimp only
          rw [List.append_assoc, List.singleton_append]
          exact hqs'
        · dsimp only
          intro j r hj
          by_cases hji : j = i
          · subst hji
            rw [hr2i] at hj
            injection hj with hj
            subst hj
            constructor
            · intro hp
              cases hp
            · intro hm
              exact absurd hm hnotin
          · rw [get?_updateAt_ne i j _ _ (fun hh => hji hh.symm),
              get?_updateAt_ne i j _ _ (fun hh => hji hh.symm)] at hj
            have hold := hpend j r hj
            rw [hq] at hold
            constructor
            · intro hp
              rcases List.mem_cons.mp (hold.mp hp) with h' | h'
              · exact absurd h' hji
              · exact h'
            · intro hm
              exact hold.mpr (List.mem_cons_of_mem i hm)
        · dsimp only
          intro w' u' i' hw' hb'
          by_cases hww : w' = w
          · subst hww
            rw [get?_updateAt_self w' _ _ _ hw] at hw'
            injection hw' with hw'
            rw [← hw'] at hb'
            have hii := workerBusyOn_awaiting hb'
            subst hii
            exact ⟨_, hr2i, rfl⟩
          · rw [get?_updateAt_ne w w' _ _ (fun hh => hww hh.symm)] at hw'
            obtain ⟨r, hr, hrd⟩ := hbusy w' u' i' hw' hb'
            by_cases hii : i' = i
            · subst hii
              rw [hx] at hr
              injection hr with hr
              rw [← hr, hxp] at hrd
              cases hrd
            · refine ⟨r, ?_, hrd⟩
              rw [get?_updateAt_ne i i' _ _ (fun hh => hii hh.symm),
                get?_updateAt_ne i i' _ _ (fun hh => hii hh.symm)]
              exact hr
        · dsimp only
          intro w1 w2 u1 u2 i' hne hw1 hw2 hb1 hb2
          by_cases h1 : w1 = w
          · subst h1
            rw [get?_updateAt_self w1 _ _ _ hw] at hw1
            injection hw1 with hw1
            rw [← hw1] at hb1
            have hii := workerBusyOn_awaiting hb1
            rw [get?_updateAt_ne w1 w2 _ _ hne] at hw2
            obtain ⟨r, hr, hrd⟩ := hbusy w2 u2 i' hw2 hb2
            rw [hii, hx] at hr
            injection hr with hr
            rw [← hr, hxp] at hrd
            cases hrd
          · by_cases h2 : w2 = w
            · subst h2
              rw [get?_updateAt_self w2 _ _ _ hw] at hw2
              injection hw2 with hw2
              rw [← hw2] at hb2
              have hii := workerBusyOn_awaiting hb2
              rw [get?_updateAt_ne w2 w1 _ _ (fun hh => hne hh.symm)] at hw1
              obtain ⟨r, hr, hrd⟩ := hbusy w1 u1 i' hw1 hb1
              rw [hii, hx] at hr
              injection hr with hr
              rw [← hr, hxp] at hrd
              cases hrd
            · rw [get?_updateAt_ne w w1 _ _ (fun hh => h1 hh.symm)] at hw1
              rw [get?_updateAt_ne w w2 _ _ (fun hh => h2 hh.symm)] at hw2
              exact huniq w1 w2 u1 u2 i' hne hw1 hw2 hb1 hb2
        · dsimp only
          have hc1 := countP_updateAt isDownloading i
            (fun r => { r with status := FileStatus.downloading }) s.requests x hx
          have hc2 := countP_updateAt isDownloading i
            (fun r => { r with attempts := r.attempts + 1 })
            (updateAt i (fun r => { r with status := FileStatus.downloading }) s.requests)
            _ hr1i
          have hcw := countP_updateAt isBusy w
            (fun _ => WorkerState.awaiting i 0) s.workers _ hw
          simp [isDownloading, isBusy, hxp] at hc1 hc2 hcw
          omega
        · dsimp only
          intro w' hw'
          by_cases hww : w' = w
          · subst hww
            rw [get?_updateAt_self w' _ _ _ hw] at hw'
            injection hw' with hw'
            exact WorkerState.noConfusion hw'
          · rw [get?_updateAt_ne w w' _ _ (fun hh => hww hh.symm)] at hw'
            have hqq := hdone w' hw'
            rw [hqq] at hq
            cases hq
        · dsimp only
          intro j r hj hrf
          by_cases hji : j = i
          · subst hji
            rw [hr2i] at hj
            injection hj with hj
            subst hj
            cases hrf
          · rw [get?_updateAt_ne i j _ _ (fun hh => hji hh.symm),
              get?_updateAt_ne i j _ _ (fun hh => hji hh.symm)] at hj
            exact hfail j r hj hrf
        · dsimp only
          intro snap hmem
          rcases List.mem_append.mp hmem with h' | h'
          · exact hsnaps snap h'
          · rw [List.mem_singleton] at h'
            subst h'
            refine mkSnapshot_ok _ _ _ ?_
            rw [length_updateAt]
            exact hrlen
    | awaiting i a =>
      have hbw : WorkerBusyOn (WorkerState.awaiting i a) i := Or.inl ⟨a, rfl⟩
      obtain ⟨x, hx, hxd⟩ := hbusy w _ i hw hbw
      have hnq : i ∉ s.queue := by
        intro hmem
        have hp := (hpend i x hx).mpr hmem
        rw [hxd] at hp
        cases hp
      cases ho : oracle i (a + 1) with
      | none =>
        have hr1i := get?_updateAt_self i
          (fun r => { r with status := FileStatus.success, error := none }) s.requests x hx
        have hstep : stepWorker cfg oracle s w =
            { s with
              requests := updateAt i
                (fun r => { r with status := FileStatus.success, error := none })
                s.requests
              active := s.active - 1
              workers := updateAt w
                (fun _ => if s.queue.isEmpty then WorkerState.done else WorkerState.start)
                s.workers
              emitted := s.emitted ++ [mkSnapshot
                (updateAt i (fun r => { r with status := FileStatus.success, error := none })
                  s.requests)
                SnapStatus.running] } := by
          simp only [stepWorker, hw, ho]
        rw [hstep]
        refine ⟨?_, ?_, ?_, ?_, ?_, ?_, ?_, ?_, ?_, ?_, ?_⟩
        · dsimp only
          rw [length_updateAt]
          exact hwlen
        · dsimp only
          rw [length_updateAt]
          exact hrlen
        · dsimp only
          have hm1 : List.map (fun r => r.url)
              (updateAt i (fun r => { r with status := FileStatus.success, error := none })
                s.requests) =
              List.map (fun r => r.url) s.requests :=
            map_updateAt_of_eq _ _ _ _ (fun r => rfl)
          exact hm1.trans hurls
        · dsimp only
          exact hqs
        · dsimp only
          intro j r hj
          by_cases hji : j = i
          · subst hji
            rw [hr1i] at hj
            injection hj with hj
            subst hj
            constructor
            · intro hp
              cases hp
            · intro hm
              exact absurd hm hnq
          · rw [get?_updateAt_ne i j _ _ (fun hh => hji hh.symm)] at hj
            exact hpend j r hj
        · dsimp only
          intro w' u' i' hw' hb'
          by_cases hww : w' = w
          · subst hww
            rw [get?_updateAt_self w' _ _ _ hw] at hw'
            injection hw' with hw'
            rw [← hw'] at hb'
            exact absurd hb' (not_workerBusyOn_ite _ i')
          · rw [get?_updateAt_ne w w' _ _ (fun hh => hww hh.symm)] at hw'
            obtain ⟨r, hr, hrd⟩ := hbusy w' u' i' hw' hb'
            by_cases hii : i' = i
            · subst hii
              exact (huniq w' w u' (WorkerState.awaiting i' a) i' hww hw' hw hb' hbw).elim
            · refine ⟨r, ?_, hrd⟩
              rw [get?_updateAt_ne i i' _ _ (fun hh => hii hh.symm)]
              exact hr
        · dsimp only
          intro w1 w2 u1 u2 i' hne hw1 hw2 hb1 hb2
          by_cases h1 : w1 = w
          · subst h1
            rw [get?_updateAt_self w1 _ _ _ hw] at hw1
            injection hw1 with hw1
            rw [← hw1] at hb1
            exact absurd hb1 (not_workerBusyOn_ite _ i')
          · by_cases h2 : w2 = w
            · subst h2
              rw [get?_updateAt_self w2 _ _ _ hw] at hw2
              injection hw2 with hw2
              rw [← hw2] at hb2
              exact absurd hb2 (not_workerBusyOn_ite _ i')
            · rw [get?_updateAt_ne w w1 _ _ (fun hh => h1 hh.symm)] at hw1
              rw [get?_updateAt_ne w w2 _ _ (fun hh => h2 hh.symm)] at hw2
              exact huniq w1 w2 u1 u2 i' hne hw1 hw2 hb1 hb2
        · dsimp only
          have hc1 := countP_updateAt_sub isDownloading i
            (fun r => { r with status := FileStatus.success, error := none }) s.requests x hx
            (by simp [isDownloading, hxd]) rfl
          have hcw := countP_updateAt_sub isBusy w
            (fun _ => if s.queue.isEmpty then WorkerState.done else WorkerState.start)
            s.workers _ hw rfl
            (by show isBusy (if s.queue.isEmpty then WorkerState.done else WorkerState.start)
                  = false
                cases s.queue.isEmpty <;> rfl)
          omega
        · dsimp only
          intro w' hw'
          by_cases hww : w' = w
          · subst hww
            rw [get?_updateAt_self w' _ _ _ hw] at hw'
            injection hw' with hw'
            cases hqe : s.queue.isEmpty
            · rw [hqe] at hw'
              simp at hw'
            · exact List.isEmpty_iff.mp hqe
          · rw [get?_updateAt_ne w w' _ _ (fun hh => hww hh.symm)] at hw'
            exact hdone w' hw'
        · dsimp only
          intro j r hj hrf
          by_cases hji : j = i
          · subst hji
            rw [hr1i] at hj
            injection hj with hj
            subst hj
            cases hrf
          · rw [get?_updateAt_ne i j _ _ (fun hh => hji hh.symm)] at hj
            exact hfail j r hj hrf
        · dsimp only
          intro snap hmem
          rcases List.mem_append.mp hmem with h' | h'
          · exact hsnaps snap h'
          · rw [List.mem_singleton] at h'
            subst h'
            refine mkSnapshot_ok _ _ _ ?_
            rw [length_updateAt]
            exact hrlen
      | some msg =>
        by_cases hmr : cfg.maxRetries < a + 1
        · -- last allowed attempt failed: terminal failure
          have hr1i := get?_updateAt_self i
            (fun r => { r with status := FileStatus.failed, error := some msg })
            s.requests x hx
          have hstep : stepWorker cfg oracle s w =
              { s with
                requests := updateAt i
                  (fun r => { r with status := FileStatus.failed, error := some msg })
                  s.requests
                active := s.active - 1
                workers := updateAt w
                  (fun _ => if s.queue.isEmpty then WorkerState.done else WorkerState.start)
                  s.workers
                emitted := s.emitted ++ [mkSnapshot
                  (updateAt i
                    (fun r => { r with status := FileStatus.failed, error := some msg })
                    s.requests)
                  SnapStatus.running] } := by
            simp only [stepWorker, hw, ho, if_pos hmr]
          rw [hstep]
          refine ⟨?_, ?_, ?_, ?_, ?_, ?_, ?_, ?_, ?_, ?_, ?_⟩
          · dsimp only
            rw [length_updateAt]
            exact hwlen
          · dsimp only
            rw [length_updateAt]
            exact hrlen
          · dsimp only
            have hm1 : List.map (fun r => r.url)
                (updateAt i
                  (fun r => { r with status := FileStatus.failed, error := some msg })
                  s.requests) =
                List.map (fun r => r.url) s.requests :=
              map_updateAt_of_eq _ _ _ _ (fun r => rfl)
            exact hm1.trans hurls
          · dsimp only
            exact hqs
          · dsimp only
            intro j r hj
            by_cases hji : j = i
            · subst hji
              rw [hr1i] at hj
              injection hj with hj
              subst hj
              constructor
              · intro hp
                cases hp
              · intro hm
                exact absurd hm hnq
            · rw [get?_updateAt_ne i j _ _ (fun hh => hji hh.symm)] at hj
              exact hpend j r hj
          · dsimp only
            intro w' u' i' hw' hb'
            by_cases hww : w' = w
            · subst hww
              rw [get?_updateAt_self w' _ _ _ hw] at hw'
              injection hw' with hw'
              rw [← hw'] at hb'
              exact absurd hb' (not_workerBusyOn_ite _ i')
            · rw [get?_updateAt_ne w w' _ _ (fun hh => hww hh.symm)] at hw'
              obtain ⟨r, hr, hrd⟩ := hbusy w' u' i' hw' hb'
              by_cases hii : i' = i
              · subst hii
                exact (huniq w' w u' (WorkerState.awaiting i' a) i' hww hw' hw hb' hbw).elim
              · refine ⟨r, ?_, hrd⟩
                rw [get?_updateAt_ne i i' _ _ (fun hh => hii hh.symm)]
                exact hr
          · dsimp only
            intro w1 w2 u1 u2 i' hne hw1 hw2 hb1 hb2
            by_cases h1 : w1 = w
            · subst h1
              rw [get?_updateAt_self w1 _ _ _ hw] at hw1
              injection hw1 with hw1
              rw [← hw1] at hb1
              exact absurd hb1 (not_workerBusyOn_ite _ i')
            · by_cases h2 : w2 = w
              · subst h2
                rw [get?_updateAt_self w2 _ _ _ hw] at hw2
                injection hw2 with hw2
                rw [← hw2] at hb2
                exact absurd hb2 (not_workerBusyOn_ite _ i')
              · rw [get?_updateAt_ne w w1 _ _ (fun hh => h1 hh.symm)] at hw1
                rw [get?_updateAt_ne w w2 _ _ (fun hh => h2 hh.symm)] at hw2
                exact huniq w1 w2 u1 u2 i' hne hw1 hw2 hb1 hb2
          · dsimp only
            have hc1 := countP_updateAt_sub isDownloading i
              (fun r => { r with status := FileStatus.failed, error := some msg })
              s.requests x hx (by simp [isDownloading, hxd]) rfl
            have hcw := countP_updateAt_sub isBusy w
              (fun _ => if s.queue.isEmpty then WorkerState.done else WorkerState.start)
              s.workers _ hw rfl
              (by show isBusy (if s.queue.isEmpty then WorkerState.done
                      else WorkerState.start) = false
                  cases s.queue.isEmpty <;> rfl)
            omega
          · dsimp only
            intro w' hw'
            by_cases hww : w' = w
            · subst hww
              rw [get?_updateAt_self w' _ _ _ hw] at hw'
              injection hw' with hw'
              cases hqe : s.queue.isEmpty
              · rw [hqe] at hw'
                simp at hw'
              · exact List.isEmpty_iff.mp hqe
            · rw [get?_updateAt_ne w w' _ _ (fun hh => hww hh.symm)] at hw'
              exact hdone w' hw'
          · dsimp only
            intro j r hj hrf
            by_cases hji : j = i
            · subst hji
              rw [hr1i] at hj
              injection hj with hj
              subst hj
              rfl
            · rw [get?_updateAt_ne i j _ _ (fun hh => hji hh.symm)] at hj
              exact hfail j r hj hrf
          · dsimp only
            intro snap hmem
            rcases List.mem_append.mp hmem with h' | h'
            · exact hsnaps snap h'
            · rw [List.mem_singleton] at h'
              subst h'
              refine mkSnapshot_ok _ _ _ ?_
              rw [length_updateAt]
              exact hrlen
        · -- failed attempt with retries left: record the error and sleep
          have hr1i := get?_updateAt_self i
            (fun r => { r with error := some msg }) s.requests x hx
          have hstep : stepWorker cfg oracle s w =
              { s with
                requests := updateAt i (fun r => { r with error := some msg }) s.requests
                workers := updateAt w (fun _ => WorkerState.sleeping i (a + 1))
                  s.workers } := by
            simp only [stepWorker, hw, ho, if_neg hmr]
          rw [hstep]
          refine ⟨?_, ?_, ?_, ?_, ?_, ?_, ?_, ?_, ?_, ?_, ?_⟩
          · dsimp only
            rw [length_updateAt]
            exact hwlen
          · dsimp only
            rw [length_updateAt]
            exact hrlen
          · dsimp only
            have hm1 : List.map (fun r => r.url)
                (updateAt i (fun r => { r with error := some msg }) s.requests) =
                List.map (fun r => r.url) s.requests :=
              map_updateAt_of_eq _ _ _ _ (fun r => rfl)
            exact hm1.trans hurls
          · dsimp only
            exact hqs
          · dsimp only
            intro j r hj
            by_cases hji : j = i
            · subst hji
              rw [hr1i] at hj
              injection hj with hj
              subst hj
              constructor
              · intro hp
                have hp2 : x.status = FileStatus.pending := hp
                rw [hxd] at hp2
                cases hp2
              · intro hm
                exact absurd hm hnq
            · rw [get?_updateAt_ne i j _ _ (fun hh => hji hh.symm)] at hj
              exact hpend j r hj
          · dsimp only
            intro w' u' i' hw' hb'
            by_cases hww : w' = w
            · subst hww
              rw [get?_updateAt_self w' _ _ _ hw] at hw'
              injection hw' with hw'
              rw [← hw'] at hb'
              have hii := workerBusyOn_sleeping hb'
              subst hii
              refine ⟨_, hr1i, ?_⟩
              exact hxd
            · rw [get?_updateAt_ne w w' _ _ (fun hh => hww hh.symm)] at hw'
              obtain ⟨r, hr, hrd⟩ := hbusy w' u' i' hw' hb'
              by_cases hii : i' = i
              · subst hii
                exact (huniq w' w u' (WorkerState.awaiting i' a) i' hww hw' hw hb' hbw).elim
              · refine ⟨r, ?_, hrd⟩
                rw [get?_updateAt_ne i i' _ _ (fun hh => hii hh.symm)]
                exact hr
          · dsimp only
            intro w1 w2 u1 u2 i' hne hw1 hw2 hb1 hb2
            by_cases h1 : w1 = w
            · subst h1
              rw [get?_updateAt_self w1 _ _ _ hw] at hw1
              injection hw1 with hw1
              rw [← hw1] at hb1
              have hii := workerBusyOn_sleeping hb1
              rw [hii] at hb2
              rw [get?_updateAt_ne w1 w2 _ _ hne] at hw2
              exact huniq w1 w2 (WorkerState.awaiting i a) u2 i hne hw hw2 hbw hb2
            · by_cases h2 : w2 = w
              · subst h2
                rw [get?_updateAt_self w2 _ _ _ hw] at hw2
                injection hw2 with hw2
                rw [← hw2] at hb2
                have hii := workerBusyOn_sleeping hb2
                rw [hii] at hb1
                rw [get?_updateAt_ne w2 w1 _ _ (fun hh => hne hh.symm)] at hw1
                exact huniq w1 w2 u1 (WorkerState.awaiting i a) i (fun hh => hne hh)
                  hw1 hw hb1 hbw
              · rw [get?_updateAt_ne w w1 _ _ (fun hh => h1 hh.symm)] at hw1
                rw [get?_updateAt_ne w w2 _ _ (fun hh => h2 hh.symm)] at hw2
                exact huniq w1 w2 u1 u2 i' hne hw1 hw2 hb1 hb2
          · dsimp only
            have hc1 := countP_updateAt isDownloading i
              (fun r => { r with error := some msg }) s.requests x hx
            have hcw := countP_updateAt isBusy w
              (fun _ => WorkerState.sleeping i (a + 1)) s.workers _ hw
            simp [isDownloading, isBusy, hxd] at hc1 hcw
            omega
          · dsimp only
            intro w' hw'
            by_cases hww : w' = w
            · subst hww
              rw [get?_updateAt_self w' _ _ _ hw] at hw'
              injection hw' with hw'
              exact WorkerState.noConfusion hw'
            · rw [get?_updateAt_ne w w' _ _ (fun hh => hww hh.symm)] at hw'
              exact hdone w' hw'
          · dsimp only
            intro j r hj hrf
            by_cases hji : j = i
            · subst hji
              rw [hr1i] at hj
              injection hj with hj
              subst hj
              have hf2 : x.status = FileStatus.failed := hrf
              rw [hxd] at hf2
              cases hf2
            · rw [get?_updateAt_ne i j _ _ (fun hh => hji hh.symm)] at hj
              exact hfail j r hj hrf
          · dsimp only
            exact hsnaps
    | sleeping i a =>
      have hbw : WorkerBusyOn (WorkerState.sleeping i a) i := Or.inr ⟨a, rfl⟩
      obtain ⟨x, hx, hxd⟩ := hbusy w _ i hw hbw
      have hnq : i ∉ s.queue := by
        intro hmem
        have hp := (hpend i x hx).mpr hmem
        rw [hxd] at hp
        cases hp
      have hr1i := get?_updateAt_self i
        (fun r => { r with attempts := r.attempts + 1 }) s.requests x hx
      have hstep : stepWorker cfg oracle s w =
          { s with
            requests := updateAt i (fun r => { r with attempts := r.attempts + 1 })
              s.requests
            workers := updateAt w (fun _ => WorkerState.awaiting i a) s.workers } := by
        simp only [stepWorker, hw]
      rw [hstep]
      refine ⟨?_, ?_, ?_, ?_, ?_, ?_, ?_, ?_, ?_, ?_, ?_⟩
      · dsimp only
        rw [length_updateAt]
        exact hwlen
      · dsimp only
        rw [length_updateAt]
        exact hrlen
      · dsimp only
        have hm1 : List.map (fun r => r.url)
            (updateAt i (fun r => { r with attempts := r.attempts + 1 }) s.requests) =
            List.map (fun r => r.url) s.requests :=
          map_updateAt_of_eq _ _ _ _ (fun r => rfl)
        exact hm1.trans hurls
      · dsimp only
        exact hqs
      · dsimp only
        intro j r hj
        by_cases hji : j = i
        · subst hji
          rw [hr1i] at hj
          injection hj with hj
          subst hj
          constructor
          · intro hp
            have hp2 : x.status = FileStatus.pending := hp
            rw [hxd] at hp2
            cases hp2
          · intro hm
            exact absurd hm hnq
        · rw [get?_updateAt_ne i j _ _ (fun hh => hji hh.symm)] at hj
          exact hpend j r hj
      · dsimp only
        intro w' u' i' hw' hb'
        by_cases hww : w' = w
        · subst hww
          rw [get?_updateAt_self w' _ _ _ hw] at hw'
          injection hw' with hw'
          rw [← hw'] at hb'
          have hii := workerBusyOn_awaiting hb'
          subst hii
          refine ⟨_, hr1i, ?_⟩
          exact hxd
        · rw [get?_updateAt_ne w w' _ _ (fun hh => hww hh.symm)] at hw'
          obtain ⟨r, hr, hrd⟩ := hbusy w' u' i' hw' hb'
          by_cases hii : i' = i
          · subst hii
            exact (huniq w' w u' (WorkerState.sleeping i' a) i' hww hw' hw hb' hbw).elim
          · refine ⟨r, ?_, hrd⟩
            rw [get?_updateAt_ne i i' _ _ (fun hh => hii hh.symm)]
            exact hr
      · dsimp only
        intro w1 w2 u1 u2 i' hne hw1 hw2 hb1 hb2
        by_cases h1 : w1 = w
        · subst h1
          rw [get?_updateAt_self w1 _ _ _ hw] at hw1
          injection hw1 with hw1
          rw [← hw1] at hb1
          have hii := workerBusyOn_awaiting hb1
          rw [hii] at hb2
          rw [get?_updateAt_ne w1 w2 _ _ hne] at hw2
          exact huniq w1 w2 (WorkerState.sleeping i a) u2 i hne hw hw2 hbw hb2
        · by_cases h2 : w2 = w
          · subst h2
            rw [get?_updateAt_self w2 _ _ _ hw] at hw2
            injection hw2 with hw2
            rw [← hw2] at hb2
            have hii := workerBusyOn_awaiting hb2
            rw [hii] at hb1
            rw [get?_updateAt_ne w2 w1 _ _ (fun hh => hne hh.symm)] at hw1
            exact huniq w1 w2 u1 (WorkerState.sleeping i a) i hne hw1 hw hb1 hbw
          · rw [get?_updateAt_ne w w1 _ _ (fun hh => h1 hh.symm)] at hw1
            rw [get?_updateAt_ne w w2 _ _ (fun hh => h2 hh.symm)] at hw2
            exact huniq w1 w2 u1 u2 i' hne hw1 hw2 hb1 hb2
      · dsimp only
        have hc1 := countP_updateAt isDownloading i
          (fun r => { r with attempts := r.attempts + 1 }) s.requests x hx
        have hcw := countP_updateAt isBusy w
          (fun _ => WorkerState.awaiting i a) s.workers _ hw
        simp [isDownloading, isBusy, hxd] at hc1 hcw
        omega
      · dsimp only
        intro w' hw'
        by_cases hww : w' = w
        · subst hww
          rw [get?_updateAt_self w' _ _ _ hw] at hw'
          injection hw' with hw'
          exact WorkerState.noConfusion hw'
        · rw [get?_updateAt_ne w w' _ _ (fun hh => hww hh.symm)] at hw'
          exact hdone w' hw'
      · dsimp only
        intro j r hj hrf
        by_cases hji : j = i
        · subst hji
          rw [hr1i] at hj
          injection hj with hj
          subst hj
          have hf2 : x.status = FileStatus.failed := hrf
          rw [hxd] at hf2
          cases hf2
        · rw [get?_updateAt_ne i j _ _ (fun hh => hji hh.symm)] at hj
          exact hfail j r hj hrf
      · dsimp only
        exact hsnaps


/-! ### Run-level theorems -/

theorem inv_runSched (cfg : TaskConfig) (urls : List String)
    (oracle : Nat → Nat → Option String) (s : SchedState) (schedule : List Nat)
    (hInv : Inv cfg urls s) : Inv cfg urls (runSched cfg oracle s schedule) := by
  induction schedule generalizing s with
  | nil => exact hInv
  | cons w ws ih => exact ih _ (inv_step cfg urls oracle s w hInv)

/-- With at least one worker, termination of the pool forces an empty
queue: the last worker to return saw the queue empty, and the queue only
ever shrinks. -/
theorem allDone_queue_empty {cfg : TaskConfig} {urls : List String} {s : SchedState}
    (hInv : Inv cfg urls s) (hc : 1 ≤ cfg.concurrency) (hd : allDone s = true) :
    s.queue = [] := by
  have hw0 : 0 < s.workers.length := by rw [hInv.wlen]; omega
  obtain ⟨u, hu⟩ := exists_get?_of_lt hw0
  have hpu := (List.all_eq_true.mp hd) u (List.get?_mem hu)
  have hud : u = WorkerState.done := by
    cases u with
    | done => rfl
    | start => simp [isDoneW] at hpu
    | awaiting i a => simp [isDoneW] at hpu
    | sleeping i a => simp [isDoneW] at hpu
  rw [hud] at hu
  exact hInv.doneEmpty 0 hu

theorem allDone_no_busy {s : SchedState} (hd : allDone s = true) :
    s.workers.countP isBusy = 0 := by
  rw [List.countP_eq_zero]
  intro u hu
  have hpu := (List.all_eq_true.mp hd) u hu
  cases u with
  | done => simp [isBusy]
  | start => simp [isDoneW] at hpu
  | awaiting i a => simp [isDoneW] at hpu
  | sleeping i a => simp [isDoneW] at hpu

/-- Once the pool has joined (and had at least one worker), every request
is terminal: none pending (the queue is drained) and none downloading
(no busy worker remains). -/
theorem allDone_terminal {cfg : TaskConfig} {urls : List String} {s : SchedState}
    (hInv : Inv cfg urls s) (hc : 1 ≤ cfg.concurrency) (hd : allDone s = true) :
    ∀ r ∈ s.requests,
      r.status = FileStatus.success ∨ r.status = FileStatus.failed := by
  intro r hr
  obtain ⟨j, hj⟩ := List.mem_iff_get?.mp hr
  have hq := allDone_queue_empty hInv hc hd
  have hnp : ¬ r.status = FileStatus.pending := by
    intro hp
    have hmem := (hInv.pendingIff j r hj).mp hp
    rw [hq] at hmem
    cases hmem
  have hnd : ¬ r.status = FileStatus.downloading := by
    intro hdl
    have hcnt : s.requests.countP isDownloading = 0 := by
      rw [hInv.countEq]
      exact allDone_no_busy hd
    have hnr := List.countP_eq_zero.mp hcnt r hr
    apply hnr
    simp [isDownloading, hdl]
  cases hst : r.status with
  | pending => exact absurd hst hnp
  | downloading => exact absurd hst hnd
  | success => exact Or.inl rfl
  | failed => exact Or.inr rfl

theorem countP_partition (l : List DownloadRequest)
    (h : ∀ r ∈ l, r.status = FileStatus.success ∨ r.status = FileStatus.failed) :
    l.countP isSuccess + l.countP isFailed = l.length := by
  induction l with
  | nil => rfl
  | cons r rest ih =>
    have hr := h r (List.mem_cons_self r rest)
    have ih2 := ih (fun x hx => h x (List.mem_cons_of_mem r hx))
    simp only [List.countP_cons, List.length_cons]
    rcases hr with hs | hs <;> simp [isSuccess, isFailed, hs] <;> omega

theorem finishRun_eq_some {s : SchedState}
    {out : DownloadResult × List DownloadProgressSnapshot}
    (h : finishRun s = some out) :
    allDone s = true ∧
    out = ({ successes := s.requests.filter isSuccess,
             failures := s.requests.filter isFailed },
           s.emitted ++ [mkSnapshot s.requests SnapStatus.completed]) := by
  unfold finishRun at h
  by_cases hd : allDone s = true
  · rw [if_pos hd] at h
    injection h with h
    exact ⟨hd, h.symm⟩
  · rw [if_neg hd] at h
    cases h

/-- **C1.** For every non-empty URL list over which `runDownloadTask`
completes (any oracle behaviour, any cooperative interleaving,
`concurrency ≥ 1`), the returned `BatchResult` partitions the entries:
`successes` is exactly the final requests with status `success` and
`failures` exactly those with status `failed`;
`len(successes) + len(failures)` equals the number of input URLs; and
each sequence is a sublist of the final entries list — which carries the
input URLs in their original positions — so each preserves the requests'
original relative input order. -/
theorem runDownloadTask_partition (idGen : Nat → String) (urls : List String)
    (cfg : TaskConfig) (oracle : Nat → Nat → Option String) (schedule : List Nat)
    (out : DownloadResult × List DownloadProgressSnapshot)
    (hne : urls ≠ []) (hc : 1 ≤ cfg.concurrency)
    (hrun : runDownloadTask idGen urls cfg oracle schedule = some out) :
    ∃ finalReqs : List DownloadRequest,
      finalReqs.map (fun r => r.url) = urls ∧
      out.1.successes = finalReqs.filter isSuccess ∧
      out.1.failures = finalReqs.filter isFailed ∧
      (∀ r ∈ out.1.successes, r.status = FileStatus.success) ∧
      (∀ r ∈ out.1.failures, r.status = FileStatus.failed) ∧
      out.1.successes.Sublist finalReqs ∧
      out.1.failures.Sublist finalReqs ∧
      out.1.successes.length + out.1.failures.length = urls.length := by
  unfold runDownloadTask at hrun
  rw [if_neg (fun hemp => hne (List.isEmpty_iff.mp hemp))] at hrun
  obtain ⟨hd, hout⟩ := finishRun_eq_some hrun
  subst hout
  have hInv := inv_runSched cfg urls oracle (initState idGen urls cfg) schedule
    (inv_init idGen urls cfg)
  have hterm := allDone_terminal hInv hc hd
  refine ⟨(runSched cfg oracle (initState idGen urls cfg) schedule).requests,
    hInv.urlsEq, rfl, rfl, ?_, ?_, List.filter_sublist _, List.filter_sublist _, ?_⟩
  · intro r hrm
    have := List.of_mem_filter hrm
    simpa [isSuccess] using this
  · intro r hrm
    have := List.of_mem_filter hrm
    simpa [isFailed] using this
  · show (List.filter isSuccess _).length + (List.filter isFailed _).length = _
    rw [← List.countP_eq_length_filter, ← List.countP_eq_length_filter]
    rw [countP_partition _ hterm]
    exact hInv.rlen

/-- **C1 witness.** Two URLs, one worker, the first transfer succeeds and
the second always fails: the run completes, the result is the filter
partition of the final entries, and the lengths add up to 2. -/
theorem runDownloadTask_partition_witness :
    ∃ (out : DownloadResult × List DownloadProgressSnapshot)
      (finalReqs : List DownloadRequest),
      runDownloadTask (fun i => "t" ++ toString i) ["a", "b"]
          { concurrency := 1, maxRetries := 0, retryDelayMs := 500 }
          (fun i _ => if i = 0 then none else some "HTTP 404")
          [0, 0, 0, 0, 0] = some out ∧
      finalReqs.map (fun r => r.url) = ["a", "b"] ∧
      out.1.successes = finalReqs.filter isSuccess ∧
      out.1.failures = finalReqs.filter isFailed ∧
      out.1.successes.length + out.1.failures.length = 2 := by
  cases hrun : runDownloadTask (fun i => "t" ++ toString i) ["a", "b"]
      { concurrency := 1, maxRetries := 0, retryDelayMs := 500 }
      (fun i _ => if i = 0 then none else some "HTTP 404") [0, 0, 0, 0, 0] with
  | none => exact absurd hrun (by decide)
  | some out =>
    obtain ⟨fr, h1, h2, h3, _, _, _, _, h8⟩ :=
      runDownloadTask_partition (fun i => "t" ++ toString i) ["a", "b"]
        { concurrency := 1, maxRetries := 0, retryDelayMs := 500 }
        (fun i _ => if i = 0 then none else some "HTTP 404") [0, 0, 0, 0, 0]
        out (by decide) (by decide) hrun
    exact ⟨out, fr, rfl, h1, h2, h3, h8⟩

/-- **C4.** During every execution of the scheduler with
`concurrency ≥ 1` — that is, in every state reachable under any schedule
and any oracle — the number of requests with status `downloading` is at
most `concurrency`; the dispatch log never repeats an index (each request
is popped from the shared queue and handed to the retry engine at most
once); and when the pool has joined, the log is exactly `range n` in
order: every request was dispatched exactly once. -/
theorem scheduler_bounded (idGen : Nat → String) (urls : List String)
    (cfg : TaskConfig) (oracle : Nat → Nat → Option String) (schedule : List Nat)
    (hc : 1 ≤ cfg.concurrency) :
    (runSched cfg oracle (initState idGen urls cfg) schedule).requests.countP
        isDownloading ≤ cfg.concurrency ∧
    (runSched cfg oracle (initState idGen urls cfg) schedule).dispatched.Nodup ∧
    (allDone (runSched cfg oracle (initState idGen urls cfg) schedule) = true →
      (runSched cfg oracle (initState idGen urls cfg) schedule).dispatched =
        List.range urls.length) := by
  have hInv := inv_runSched cfg urls oracle (initState idGen urls cfg) schedule
    (inv_init idGen urls cfg)
  refine ⟨?_, ?_, ?_⟩
  · rw [hInv.countEq, ← hInv.wlen]
    exact List.countP_le_length isBusy
  · have hnd : ((runSched cfg oracle (initState idGen urls cfg) schedule).dispatched ++
        (runSched cfg oracle (initState idGen urls cfg) schedule).queue).Nodup := by
      rw [hInv.queueSplit]
      exact List.nodup_range _
    exact hnd.of_append_left
  · intro hd
    have hq := allDone_queue_empty hInv hc hd
    have := hInv.queueSplit
    rw [hq, List.append_nil] at this
    exact this

/-- **C4 witness.** Five URLs, two workers, a failing oracle with one
retry: after an arbitrary prefix of the interleaving the downloading
count is within the bound, no index was dispatched twice, and on the
completed run every one of the five indices was dispatched exactly
once. -/
theorem scheduler_bounded_witness :
    (runSched { concurrency := 2, maxRetries := 1, retryDelayMs := 100 }
        (fun i k => if i = 1 && k = 1 then some "E" else none)
        (initState (fun i => "t" ++ toString i) ["a", "b", "c", "d", "e"]
          { concurrency := 2, maxRetries := 1, retryDelayMs := 100 })
        [0, 1, 0, 1, 0, 1]).requests.countP isDownloading ≤ 2 ∧
    (runSched { concurrency := 2, maxRetries := 1, retryDelayMs := 100 }
        (fun i k => if i = 1 && k = 1 then some "E" else none)
        (initState (fun i => "t" ++ toString i) ["a", "b", "c", "d", "e"]
          { concurrency := 2, maxRetries := 1, retryDelayMs := 100 })
        [0, 1, 0, 1, 0, 1]).dispatched.Nodup := by
  have h := scheduler_bounded (fun i => "t" ++ toString i) ["a", "b", "c", "d", "e"]
    { concurrency := 2, maxRetries := 1, retryDelayMs := 100 }
    (fun i k => if i = 1 && k = 1 then some "E" else none)
    [0, 1, 0, 1, 0, 1] (by decide)
  exact ⟨h.1, h.2.1⟩

/-- **C6.** Every snapshot delivered to the observer — in any reachable
state of the scheduler, and, for a completing run, in the full delivered
sequence including the final `completed` snapshot — satisfies
`completed = successes + failures`, `completed ≤ total`, and
`total = number of input URLs`. -/
theorem snapshots_consistent (idGen : Nat → String) (urls : List String)
    (cfg : TaskConfig) (oracle : Nat → Nat → Option String) (schedule : List Nat) :
    (∀ snap ∈ (runSched cfg oracle (initState idGen urls cfg) schedule).emitted,
        snap.completed = snap.successes + snap.failures ∧
        snap.completed ≤ snap.total ∧ snap.total = urls.length) ∧
    (∀ out, runDownloadTask idGen urls cfg oracle schedule = some out →
        ∀ snap ∈ out.2,
          snap.completed = snap.successes + snap.failures ∧
          snap.completed ≤ snap.total ∧ snap.total = urls.length) := by
  have hInv := inv_runSched cfg urls oracle (initState idGen urls cfg) schedule
    (inv_init idGen urls cfg)
  constructor
  · intro snap hmem
    exact hInv.snapsOK snap hmem
  · intro out hrun snap hmem
    unfold runDownloadTask at hrun
    by_cases hemp : urls.isEmpty = true
    · rw [if_pos hemp] at hrun
      injection hrun with hrun
      rw [← hrun] at hmem
      cases hmem
    · rw [if_neg hemp] at hrun
      obtain ⟨hd, hout⟩ := finishRun_eq_some hrun
      subst hout
      rcases List.mem_append.mp hmem with h' | h'
      · exact hInv.snapsOK snap h'
      · rw [List.mem_singleton] at h'
        subst h'
        exact mkSnapshot_ok _ _ _ hInv.rlen

/-- **C6 witness.** A completed two-URL run with one success and one
failure: the delivered snapshot list is non-empty and its head (the idle
snapshot) satisfies the three conditions, via the theorem applied to the
concrete run. -/
theorem snapshots_consistent_witness :
    ∃ out, runDownloadTask (fun i => "t" ++ toString i) ["a", "b"]
        { concurrency := 1, maxRetries := 0, retryDelayMs := 500 }
        (fun i _ => if i = 0 then none else some "HTTP 404")
        [0, 0, 0, 0, 0] = some out ∧
      ∀ snap ∈ out.2,
        snap.completed = snap.successes + snap.failures ∧
        snap.completed ≤ snap.total ∧ snap.total = 2 := by
  cases hrun : runDownloadTask (fun i => "t" ++ toString i) ["a", "b"]
      { concurrency := 1, maxRetries := 0, retryDelayMs := 500 }
      (fun i _ => if i = 0 then none else some "HTTP 404") [0, 0, 0, 0, 0] with
  | none => exact absurd hrun (by decide)
  | some out =>
    exact ⟨out, rfl,
      (snapshots_consistent (fun i => "t" ++ toString i) ["a", "b"]
        { concurrency := 1, maxRetries := 0, retryDelayMs := 500 }
        (fun i _ => if i = 0 then none else some "HTTP 404")
        [0, 0, 0, 0, 0]).2 out hrun⟩

/-- **C8.** For every batch and every behaviour of the transfer/sink
primitives (the oracle may fail every attempt of every item with any
message), a per-item failure never escapes: the only fallible primitive
is the transfer (`attemptDownload` / the oracle), the retry engine
catches it, and `runDownloadTask` returns an ordinary `BatchResult` in
which each such item appears in `failures` with terminal status `failed`
and the failure message recorded in its `error` field; successes are
likewise ordinary entries.  No exception value exists in the
orchestrator's result type. -/
theorem runDownloadTask_error_containment (idGen : Nat → String)
    (urls : List String) (cfg : TaskConfig) (oracle : Nat → Nat → Option String)
    (schedule : List Nat) (out : DownloadResult × List DownloadProgressSnapshot)
    (hrun : runDownloadTask idGen urls cfg oracle schedule = some out) :
    (∀ r ∈ out.1.failures, r.status = FileStatus.failed ∧ r.error.isSome = true) ∧
    (∀ r ∈ out.1.successes, r.status = FileStatus.success) := by
  unfold runDownloadTask at hrun
  by_cases hemp : urls.isEmpty = true
  · rw [if_pos hemp] at hrun
    injection hrun with hrun
    subst hrun
    refine ⟨?_, ?_⟩ <;> intro r hr <;> simp at hr
  · rw [if_neg hemp] at hrun
    obtain ⟨hd, hout⟩ := finishRun_eq_some hrun
    subst hout
    have hInv := inv_runSched cfg urls oracle (initState idGen urls cfg) schedule
      (inv_init idGen urls cfg)
    constructor
    · intro r hr
      have hstat : r.status = FileStatus.failed := by
        have := List.of_mem_filter hr
        simpa [isFailed] using this
      refine ⟨hstat, ?_⟩
      obtain ⟨j, hj⟩ := List.mem_iff_get?.mp (List.mem_of_mem_filter hr)
      exact hInv.failedErr j r hj hstat
    · intro r hr
      have := List.of_mem_filter hr
      simpa [isSuccess] using this

/-- **C8 witness.** One URL whose every attempt fails with "HTTP 404"
under `maxRetries = 0`: the orchestrator still completes with an
ordinary result whose single failure carries status `failed` and a
recorded error message. -/
theorem runDownloadTask_error_containment_witness :
    ∃ out, runDownloadTask (fun i => "t" ++ toString i) ["a"]
        { concurrency := 1, maxRetries := 0, retryDelayMs := 500 }
        (fun _ _ => some "HTTP 404") [0, 0, 0] = some out ∧
      ∀ r ∈ out.1.failures, r.status = FileStatus.failed ∧ r.error.isSome = true := by
  cases hrun : runDownloadTask (fun i => "t" ++ toString i) ["a"]
      { concurrency := 1, maxRetries := 0, retryDelayMs := 500 }
      (fun _ _ => some "HTTP 404") [0, 0, 0] with
  | none => exact absurd hrun (by decide)
  | some out =>
    exact ⟨out, rfl,
      (runDownloadTask_error_containment (fun i => "t" ++ toString i) ["a"]
        { concurrency := 1, maxRetries := 0, retryDelayMs := 500 }
        (fun _ _ => some "HTTP 404") [0, 0, 0] out hrun).1⟩


end DM
